import Mathlib

/-!
Shallow embedding of the littlefs-backed ring buffer (`lfs_ringbuffer.c`).

The state of a ring buffer consists of the in-memory position attribute
(`attr_buf.le`: 64-bit logical read position and 32-bit write distance), the
most recently persisted copy of that attribute, and the content of the backing
file. Backend calls (`lfs_file_seek` / `lfs_file_read` / `lfs_file_write` /
`lfs_file_rewind` / `lfs_file_sync`) may fail; failures are injected through an
explicit schedule, one Boolean per backend call, where the empty schedule
injects no failures. `LFS_ASSERT` conditions are recorded as comments; the
model uses the arithmetic that the assertions guarantee. The 64-bit logical
read position is modelled as an unbounded natural number: the specification
declares overflow of the on-disk 64-bit counter a non-goal.
-/

namespace LfsRing

/-- Content mode of a ring buffer (`enum lfsring_mode`). -/
inductive Mode where
  | stream
  | obj
deriving DecidableEq, Repr

/-- `LFSRING_NO_OVERWRITE`, the first `enum lfsring_write_mode` constant.
The write mode is passed around as its raw numeric value so that calls with
values outside the enumeration can be expressed. -/
def NO_OVERWRITE : Nat := 0

/-- `LFSRING_OVERWRITE`, the second `enum lfsring_write_mode` constant. -/
def OVERWRITE : Nat := 1

/-- Error results: the `LFS_ERR_*` codes produced by the library itself, plus
`backend` standing for any negative code surfaced verbatim from a failed
littlefs backend call. -/
inductive Err where
  | inval    -- LFS_ERR_INVAL
  | nospc    -- LFS_ERR_NOSPC
  | noent    -- LFS_ERR_NOENT
  | corrupt  -- LFS_ERR_CORRUPT
  | nomem    -- LFS_ERR_NOMEM
  | backend  -- error propagated from the backend
deriving DecidableEq, Repr

/-- Content of the backing file: the byte stored at each physical offset
(only offsets below the capacity are relevant). -/
def File : Type := Nat → Nat

/-- A file whose bytes are all zero. -/
def zeroFile : File := fun _ => 0

/-- Configuration (`lfsring_config_t`): `cap` is `file_size`, the fixed
capacity of the ring. -/
structure Cfg where
  cap : Nat
  mode : Mode

/-- Ring state: `readPos` / `writeDist` mirror the in-memory `attr_buf`,
`pReadPos` / `pWriteDist` are the copies most recently made durable by
`lfs_file_sync`, and `file` is the backing file content. -/
structure Ring where
  readPos : Nat
  writeDist : Nat
  pReadPos : Nat
  pWriteDist : Nat
  file : File

/-- Injected backend-failure schedule: one entry per backend call, `true`
makes that call fail. The empty schedule makes every call succeed. -/
def Faults : Type := List Bool

/-- One backend call: consume the head of the schedule. -/
def bcall : Faults → Bool × Faults
  | [] => (false, [])
  | b :: rest => (b, rest)

/-- Little-endian 32-bit decode of four bytes (`lfs_fromle32`). -/
def dec32 (b : List Nat) : Nat :=
  b.getD 0 0 + 256 * b.getD 1 0 + 65536 * b.getD 2 0 + 16777216 * b.getD 3 0

/-- Little-endian 32-bit encode into four bytes (`lfs_tole32` as stored in
memory). -/
def enc32 (x : Nat) : List Nat :=
  [x % 256, x / 256 % 256, x / 65536 % 256, x / 16777216 % 256]

/-- `get_pos_r`: the 64-bit logical read position. -/
def get_pos_r (r : Ring) : Nat := r.readPos

/-- `get_pos_w`: the derived logical write position. -/
def get_pos_w (r : Ring) : Nat := get_pos_r r + r.writeDist

/-- Effect of a successful `lfs_file_sync` on the attribute: the in-memory
position state becomes the persisted one (content writes are persisted when
they are performed in this model). -/
def syncAttr (r : Ring) : Ring :=
  { r with pReadPos := r.readPos, pWriteDist := r.writeDist }

/-- Contiguous write of `data` at physical offset `off`: one
`lfs_file_write`. -/
def wrange (f : File) (off : Nat) (data : List Nat) : File :=
  fun j => if off ≤ j ∧ j < off + data.length then data.getD (j - off) 0 else f j

/-- Contiguous read of `n` bytes at physical offset `off`: one
`lfs_file_read`. -/
def rrange (f : File) (off n : Nat) : List Nat :=
  (List.range n).map fun i => f (off + i)

/-- Result of an operation that can change the ring state. -/
structure AOut where
  ring : Ring
  flt : Faults
  err : Option Err


/-- Result of a read-only operation: the retrieved bytes. -/
structure ROut where
  bytes : List Nat
  flt : Faults
  err : Option Err


/-- Result of `lfsring_take`: new state plus retrieved bytes. -/
structure TOut where
  ring : Ring
  bytes : List Nat
  flt : Faults
  err : Option Err


/-- Result of an object-skipping scan loop: accumulated byte count. -/
structure SOut where
  dropped : Nat
  flt : Faults
  err : Option Err


/-- `do_write`: write `data` at `rel_off` past the write position, splitting
at the end of the file; `LFS_ASSERT(sz < file_size)`. Backend calls in order:
seek, write, then when the access wraps rewind and write, finally sync. A
failed write leaves no bytes behind in the model. -/
def do_write (q : Faults) (cfg : Cfg) (r : Ring) (data : List Nat)
    (rel_off : Nat) : AOut :=
  let write_offset := (get_pos_w r + rel_off) % cfg.cap
  match bcall q with
  | (true, q) => ⟨r, q, some .backend⟩
  | (false, q) =>
    let avail := cfg.cap - write_offset
    let fit := min avail data.length
    match bcall q with
    | (true, q) => ⟨r, q, some .backend⟩
    | (false, q) =>
      let r1 : Ring := { r with file := wrange r.file write_offset (data.take fit) }
      if fit < data.length then
        match bcall q with
        | (true, q) => ⟨r1, q, some .backend⟩
        | (false, q) =>
          match bcall q with
          | (true, q) => ⟨r1, q, some .backend⟩
          | (false, q) =>
            let r2 : Ring := { r1 with file := wrange r1.file 0 (data.drop fit) }
            match bcall q with
            | (true, q) => ⟨r2, q, some .backend⟩
            | (false, q) => ⟨syncAttr r2, q, none⟩
      else
        match bcall q with
        | (true, q) => ⟨r1, q, some .backend⟩
        | (false, q) => ⟨syncAttr r1, q, none⟩

/-- `do_read`: read `sz` bytes at `rel_off` past the read position, splitting
at the end of the file; `LFS_ASSERT(sz < file_size)`. Backend calls in order:
seek, read, then when the access wraps rewind and read. The file of the model
is total over the capacity, so the short-read promotion to `LFS_ERR_CORRUPT`
cannot fire and has no corresponding branch here. -/
def do_read (q : Faults) (cfg : Cfg) (r : Ring) (sz rel_off : Nat) : ROut :=
  let read_offset := (get_pos_r r + rel_off) % cfg.cap
  match bcall q with
  | (true, q) => ⟨[], q, some .backend⟩
  | (false, q) =>
    let avail := cfg.cap - read_offset
    let fit := min avail sz
    match bcall q with
    | (true, q) => ⟨[], q, some .backend⟩
    | (false, q) =>
      let part1 := rrange r.file read_offset fit
      if fit < sz then
        match bcall q with
        | (true, q) => ⟨part1, q, some .backend⟩
        | (false, q) =>
          match bcall q with
          | (true, q) => ⟨part1, q, some .backend⟩
          | (false, q) => ⟨part1 ++ rrange r.file 0 (sz - fit), q, none⟩
      else ⟨part1, q, none⟩

/-- Net file content produced by a successful `do_write`: the first part of
the data up to the end of the file, the remainder wrapped to offset zero. -/
def do_write_file (cfg : Cfg) (r : Ring) (data : List Nat) (rel_off : Nat) : File :=
  let write_offset := (get_pos_w r + rel_off) % cfg.cap
  let fit := min (cfg.cap - write_offset) data.length
  if fit < data.length then
    wrange (wrange r.file write_offset (data.take fit)) 0 (data.drop fit)
  else wrange r.file write_offset (data.take fit)

/-- `advance_write_position`; `LFS_ASSERT(old + distance ≤ file_size)` holds at
every call site, so the 32-bit store cannot wrap. The attribute is made
durable by the final `lfs_file_sync`; on a sync failure the in-memory state
has already changed but the persisted state has not. -/
def advance_write_position (q : Faults) (r : Ring) (distance : Nat) : AOut :=
  let r1 : Ring := { r with writeDist := r.writeDist + distance }
  match bcall q with
  | (true, q) => ⟨r1, q, some .backend⟩
  | (false, q) => ⟨syncAttr r1, q, none⟩

/-- `advance_read_position`; `LFS_ASSERT(distance ≤ old_write_dist)` holds at
every call site. As in `advance_write_position`, a sync failure leaves the
in-memory state changed but not the persisted one. -/
def advance_read_position (q : Faults) (r : Ring) (distance : Nat) : AOut :=
  let r1 : Ring := { r with readPos := r.readPos + distance,
                            writeDist := r.writeDist - distance }
  match bcall q with
  | (true, q) => ⟨r1, q, some .backend⟩
  | (false, q) => ⟨syncAttr r1, q, none⟩

/-- `lfsring_is_empty`. -/
def lfsring_is_empty (r : Ring) : Bool := r.writeDist == 0

/-- While loop of the object-mode `LFSRING_OVERWRITE` eviction inside
`lfsring_append`: starting from `dropped` bytes already covered, keep skipping
whole framed objects until at least `overlap_size` bytes are covered.
`LFS_ASSERT(dropped < skippable)` and `LFS_ASSERT(dropped ≤ skippable)` hold
along every non-error path. -/
def evict_loop (q : Faults) (cfg : Cfg) (r : Ring)
    (overlap_size skippable dropped : Nat) : SOut :=
  if h : dropped < overlap_size then
    if skippable - dropped < 4 then ⟨dropped, q, some .corrupt⟩
    else
      match do_read q cfg r 4 dropped with
      | ⟨_, q, some e⟩ => ⟨dropped, q, some e⟩
      | ⟨bytes, q, none⟩ =>
        let obj_size := dec32 bytes
        let dropped1 := dropped + 4
        if skippable - dropped1 < obj_size then ⟨dropped1, q, some .corrupt⟩
        else evict_loop q cfg r overlap_size skippable (dropped1 + obj_size)
  else ⟨dropped, q, none⟩
termination_by overlap_size - dropped
decreasing_by omega

/-- Shared tail of `lfsring_append` after argument validation and the
stream-mode truncation of oversized data: pre-emptive read-position advance
when overwriting live data, the object-mode header write, the payload write,
and the final write-position advance. -/
def append_rest (q : Faults) (cfg : Cfg) (r : Ring) (data : List Nat)
    (write_mode : Nat) : AOut :=
  let available_size := cfg.cap - r.writeDist
  let write_size := data.length + (if cfg.mode = Mode.obj then 4 else 0)
  let step1 : AOut :=
    if write_mode = OVERWRITE ∧ write_size > available_size then
      let overlap_size := write_size - available_size
      if cfg.mode = Mode.obj then
        match evict_loop q cfg r overlap_size r.writeDist 0 with
        | ⟨_, q, some e⟩ => ⟨r, q, some e⟩
        | ⟨dropped, q, none⟩ => advance_read_position q r dropped
      else advance_read_position q r overlap_size
    else ⟨r, q, none⟩
  match step1 with
  | ⟨r1, q, some e⟩ => ⟨r1, q, some e⟩
  | ⟨r1, q, none⟩ =>
    let step2 : AOut :=
      if cfg.mode = Mode.obj then do_write q cfg r1 (enc32 data.length) 0
      else ⟨r1, q, none⟩
    match step2 with
    | ⟨r2, q, some e⟩ => ⟨r2, q, some e⟩
    | ⟨r2, q, none⟩ =>
      match do_write q cfg r2 data (if cfg.mode = Mode.obj then 4 else 0) with
      | ⟨r3, q, some e⟩ => ⟨r3, q, some e⟩
      | ⟨r3, q, none⟩ => advance_write_position q r3 write_size

/-- `lfsring_append`. `write_mode` is the raw enumeration value
(`0 = LFSRING_NO_OVERWRITE`, `1 = LFSRING_OVERWRITE`, anything else is
invalid). -/
def lfsring_append (q : Faults) (cfg : Cfg) (r : Ring) (data0 : List Nat)
    (write_mode : Nat) : AOut :=
  if write_mode ≠ NO_OVERWRITE ∧ write_mode ≠ OVERWRITE then ⟨r, q, some .inval⟩
  else
    let available_size := cfg.cap - r.writeDist
    if cfg.mode = Mode.obj then
      let eff_avail := if write_mode = OVERWRITE then cfg.cap else available_size
      if eff_avail < 4 then ⟨r, q, some .nospc⟩
      else if data0.length > eff_avail - 4 then ⟨r, q, some .nospc⟩
      else append_rest q cfg r data0 write_mode
    else if write_mode = OVERWRITE then
      append_rest q cfg r
        (if data0.length > cfg.cap then data0.drop (data0.length - cfg.cap) else data0)
        write_mode
    else if data0.length > available_size then ⟨r, q, some .nospc⟩
    else append_rest q cfg r data0 write_mode

/-- `lfsring_peek`. The C function fills a caller buffer and returns the byte
count; the model returns the retrieved bytes, whose length is that count. The
function performs no state mutation, which the result type makes explicit. -/
def lfsring_peek (q : Faults) (cfg : Cfg) (r : Ring) (buffer_size : Nat) : ROut :=
  let avail := r.writeDist
  if cfg.mode = Mode.obj then
    if avail = 0 then ⟨[], q, some .noent⟩
    else if avail < 4 then ⟨[], q, some .corrupt⟩
    else
      match do_read q cfg r 4 0 with
      | ⟨_, q, some e⟩ => ⟨[], q, some e⟩
      | ⟨bytes, q, none⟩ =>
        let obj_size := dec32 bytes
        if avail - 4 < obj_size then ⟨[], q, some .corrupt⟩
        else if obj_size > buffer_size then ⟨[], q, some .nomem⟩
        else do_read q cfg r obj_size 4
  else
    do_read q cfg r (min avail buffer_size) 0

/-- `lfsring_take`: peek, then advance the read position past the retrieved
bytes (plus the 4-byte header in object mode). `LFS_ASSERT(ret ≤ buffer_size)`
holds on every success path. -/
def lfsring_take (q : Faults) (cfg : Cfg) (r : Ring) (buffer_size : Nat) : TOut :=
  match lfsring_peek q cfg r buffer_size with
  | ⟨_, q, some e⟩ => ⟨r, [], q, some e⟩
  | ⟨bytes, q, none⟩ =>
    match advance_read_position q r
        (bytes.length + (if cfg.mode = Mode.obj then 4 else 0)) with
    | ⟨r1, q, e⟩ => ⟨r1, bytes, q, e⟩

/-- While loop of object-mode `lfsring_drop`: skip `n` whole framed objects,
accumulating their framed sizes. -/
def drop_loop (q : Faults) (cfg : Cfg) (r : Ring) (n avail dropped : Nat) : SOut :=
  match n with
  | 0 => ⟨dropped, q, none⟩
  | n + 1 =>
    if avail = dropped then ⟨dropped, q, some .inval⟩
    else if avail - dropped < 4 then ⟨dropped, q, some .corrupt⟩
    else
      match do_read q cfg r 4 dropped with
      | ⟨_, q, some e⟩ => ⟨dropped, q, some e⟩
      | ⟨bytes, q, none⟩ =>
        let obj_size := dec32 bytes
        let dropped1 := dropped + 4
        if avail - dropped1 < obj_size then ⟨dropped1, q, some .corrupt⟩
        else drop_loop q cfg r n avail (dropped1 + obj_size)

/-- `lfsring_drop`. -/
def lfsring_drop (q : Faults) (cfg : Cfg) (r : Ring) (n : Nat) : AOut :=
  let avail := r.writeDist
  if cfg.mode = Mode.stream then
    if n > avail then ⟨r, q, some .inval⟩
    else advance_read_position q r n
  else
    match drop_loop q cfg r n avail 0 with
    | ⟨_, q, some e⟩ => ⟨r, q, some e⟩
    | ⟨dropped, q, none⟩ => advance_read_position q r dropped

/-- Decoding of the persisted 12-byte attribute performed by `lfsring_open`
via `get_pos_r` and the `attr_buf.le` layout: bytes 0 to 3 are the low half of
the read position, bytes 4 to 7 the high half, bytes 8 to 11 the write
distance, all little-endian. No field is validated. The in-memory state
coincides with the persisted one right after decoding. -/
def decode_attr (blob : List Nat) (f : File) : Ring :=
  let low := dec32 (blob.take 4)
  let high := dec32 ((blob.drop 4).take 4)
  let wd := dec32 ((blob.drop 8).take 4)
  { readPos := high * 4294967296 + low, writeDist := wd,
    pReadPos := high * 4294967296 + low, pWriteDist := wd, file := f }

/-- `lfsring_open`: open or create the backing file (one backend call, which
may fail) and attach the 12-byte attribute, zero-filled by `memset` when it
does not exist yet. The configured capacity is not compared against the
decoded state. -/
def lfsring_open (q : Faults) (cfg : Cfg) (blob : List Nat) (f : File) :
    Option Ring :=
  match bcall q with
  | (true, _) => none
  | (false, _) => some (decode_attr blob f)

/-- The persisted attribute blob of a ring, in the `attr_buf.le` layout. -/
def encode_attr (r : Ring) : List Nat :=
  enc32 (r.pReadPos % 4294967296) ++ enc32 (r.pReadPos / 4294967296) ++
    enc32 r.pWriteDist

/-- `lfsring_close` releases the file handle; what survives for a later open
is the persisted attribute blob and the file content. -/
def lfsring_close (r : Ring) : List Nat × File := (encode_attr r, r.file)

/-- Zero-initialised position state over arbitrary backing-file content: the
state of a freshly created ring buffer. -/
def initRing (f : File) : Ring := ⟨0, 0, 0, 0, f⟩

/-- States reachable from the empty state by successful fault-free public
operations. -/
inductive Reach (cfg : Cfg) : Ring → Prop where
  | init (f : File) : Reach cfg (initRing f)
  | append (r : Ring) (data : List Nat) (wm : Nat) (hr : Reach cfg r)
      (hok : (lfsring_append [] cfg r data wm).err = none) :
      Reach cfg (lfsring_append [] cfg r data wm).ring
  | take (r : Ring) (bs : Nat) (hr : Reach cfg r)
      (hok : (lfsring_take [] cfg r bs).err = none) :
      Reach cfg (lfsring_take [] cfg r bs).ring
  | drop (r : Ring) (n : Nat) (hr : Reach cfg r)
      (hok : (lfsring_drop [] cfg r n).err = none) :
      Reach cfg (lfsring_drop [] cfg r n).ring

/-- Bytes of the live region: byte `i` past logical position `p` lives at
physical offset `(p + i) % cap`. -/
def logRead (cfg : Cfg) (f : File) (p n : Nat) : List Nat :=
  (List.range n).map fun i => f ((p + i) % cfg.cap)

/-- The `d` live bytes starting at logical position `p` form a concatenation
of whole framed objects, each a 4-byte little-endian length followed by that
many payload bytes. -/
inductive Framed (cfg : Cfg) (f : File) : Nat → Nat → Prop where
  | nil (p : Nat) : Framed cfg f p 0
  | cons (p d L : Nat) (hL : L = dec32 (logRead cfg f p 4)) (hle : 4 + L ≤ d)
      (rest : Framed cfg f (p + (4 + L)) (d - (4 + L))) : Framed cfg f p d

/-- Net effect of the write phase of a fault-free append: the object-mode
header write, the payload write, and the write-position advance, each
followed by its sync. -/
def append_writes (cfg : Cfg) (r1 : Ring) (data : List Nat) (write_size : Nat) :
    Ring :=
  let r2 := if cfg.mode = Mode.obj then
      syncAttr { r1 with file := do_write_file cfg r1 (enc32 data.length) 0 }
    else r1
  let r3 := syncAttr
    { r2 with
      file := do_write_file cfg r2 data (if cfg.mode = Mode.obj then 4 else 0) }
  syncAttr { r3 with writeDist := r3.writeDist + write_size }

/-! Basic lemmas about the backend primitives under the empty fault
schedule. -/

theorem bcall_nil : bcall [] = (false, []) := rfl

theorem advance_read_nil (r : Ring) (d : Nat) :
    advance_read_position [] r d =
      ⟨syncAttr { r with readPos := r.readPos + d, writeDist := r.writeDist - d },
        [], none⟩ := rfl

theorem advance_write_nil (r : Ring) (d : Nat) :
    advance_write_position [] r d =
      ⟨syncAttr { r with writeDist := r.writeDist + d }, [], none⟩ := rfl

theorem do_write_nil (cfg : Cfg) (r : Ring) (data : List Nat) (rel_off : Nat) :
    do_write [] cfg r data rel_off =
      ⟨syncAttr { r with file := do_write_file cfg r data rel_off }, [], none⟩ := by
  simp only [do_write, do_write_file, bcall]
  split <;> rfl

@[simp] theorem rrange_length (f : File) (off n : Nat) :
    (rrange f off n).length = n := by
  simp [rrange]

@[simp] theorem logRead_length (cfg : Cfg) (f : File) (p n : Nat) :
    (logRead cfg f p n).length = n := by
  simp [logRead]

theorem do_read_nil (cfg : Cfg) (r : Ring) (sz rel_off : Nat)
    (hc : 0 < cfg.cap) (hsz : sz ≤ cfg.cap) :
    do_read [] cfg r sz rel_off =
      ⟨logRead cfg r.file (get_pos_r r + rel_off) sz, [], none⟩ := by
  have hro : (get_pos_r r + rel_off) % cfg.cap < cfg.cap :=
    Nat.mod_lt _ hc
  unfold do_read bcall
  simp only
  split
  case isTrue hlt =>
    simp only [ROut.mk.injEq, and_true]
    have hfit : min (cfg.cap - (get_pos_r r + rel_off) % cfg.cap) sz =
        cfg.cap - (get_pos_r r + rel_off) % cfg.cap := by omega
    rw [hfit] at hlt ⊢
    apply List.ext_getElem
    · simp; omega
    · intro i h1 h2
      set p := get_pos_r r + rel_off with hp
      set ro := p % cfg.cap with hro2
      simp only [logRead, List.getElem_map, List.getElem_range]
      rcases Nat.lt_or_ge i (cfg.cap - ro) with hcase | hcase
      · rw [List.getElem_append_left (by simpa using hcase)]
        simp only [rrange, List.getElem_map, List.getElem_range]
        have : (p + i) % cfg.cap = ro + i := by
          rw [hro2, ← Nat.mod_add_mod, Nat.mod_eq_of_lt (by omega)]
        rw [this]
      · rw [List.getElem_append_right (by simpa using hcase)]
        simp only [rrange, List.getElem_map, List.getElem_range,
          List.length_map, List.length_range]
        have h3 : i < sz := by simpa using h2
        have : (p + i) % cfg.cap = i - (cfg.cap - ro) := by
          rw [hro2, ← Nat.mod_add_mod]
          have : ro + i = cfg.cap + (i - (cfg.cap - ro)) := by omega
          rw [this, Nat.add_mod_left, Nat.mod_eq_of_lt (by omega)]
        rw [this, Nat.zero_add]
  case isFalse hge =>
    simp only [ROut.mk.injEq, and_true]
    have hfit : min (cfg.cap - (get_pos_r r + rel_off) % cfg.cap) sz = sz := by
      omega
    rw [hfit]
    apply List.ext_getElem
    · simp
    · intro i h1 h2
      set p := get_pos_r r + rel_off with hp
      set ro := p % cfg.cap with hro2
      simp only [rrange, logRead, List.getElem_map, List.getElem_range]
      have h3 : i < sz := by simpa using h2
      have : (p + i) % cfg.cap = ro + i := by
        rw [hro2, ← Nat.mod_add_mod, Nat.mod_eq_of_lt (by omega)]
      rw [this]

/-! Pointwise characterisation of the file content after a write. -/

theorem do_write_file_at (cfg : Cfg) (r : Ring) (data : List Nat)
    (rel_off : Nat) (hc : 0 < cfg.cap) (hlen : data.length ≤ cfg.cap)
    (i : Nat) (hi : i < data.length) :
    do_write_file cfg r data rel_off ((get_pos_w r + rel_off + i) % cfg.cap) =
      data.getD i 0 := by
  have hwo : (get_pos_w r + rel_off) % cfg.cap < cfg.cap := Nat.mod_lt _ hc
  have haddr : (get_pos_w r + rel_off + i) % cfg.cap =
      ((get_pos_w r + rel_off) % cfg.cap + i) % cfg.cap :=
    (Nat.mod_add_mod _ _ _).symm
  rw [haddr]
  simp only [do_write_file]
  generalize hwo2 : (get_pos_w r + rel_off) % cfg.cap = wo at hwo ⊢
  split
  case isTrue hlt =>
    have hfit : min (cfg.cap - wo) data.length = cfg.cap - wo := by omega
    rw [hfit] at hlt ⊢
    rcases Nat.lt_or_ge i (cfg.cap - wo) with hcase | hcase
    · have ha : (wo + i) % cfg.cap = wo + i := Nat.mod_eq_of_lt (by omega)
      rw [ha]
      unfold wrange
      have hnot : ¬ (0 ≤ wo + i ∧ wo + i < 0 + (data.drop (cfg.cap - wo)).length) := by
        simp only [List.length_drop]
        omega
      rw [if_neg hnot]
      have hyes : wo ≤ wo + i ∧ wo + i < wo + (data.take (cfg.cap - wo)).length := by
        simp only [List.length_take]
        omega
      rw [if_pos hyes, Nat.add_sub_cancel_left]
      rw [List.getD_eq_getElem _ _ (by simp [List.length_take]; omega),
          List.getD_eq_getElem _ _ (by omega), List.getElem_take]
    · have ha : (wo + i) % cfg.cap = i - (cfg.cap - wo) := by
        have : wo + i = cfg.cap + (i - (cfg.cap - wo)) := by omega
        rw [this, Nat.add_mod_left, Nat.mod_eq_of_lt (by omega)]
      rw [ha]
      unfold wrange
      have hyes : 0 ≤ i - (cfg.cap - wo) ∧
          i - (cfg.cap - wo) < 0 + (data.drop (cfg.cap - wo)).length := by
        simp only [List.length_drop]
        omega
      rw [if_pos hyes, Nat.sub_zero]
      rw [List.getD_eq_getElem _ _ (by simp [List.length_drop]; omega),
          List.getD_eq_getElem _ _ (by omega), List.getElem_drop]
      congr 1
      omega
  case isFalse hge =>
    have hfit : min (cfg.cap - wo) data.length = data.length := by omega
    rw [hfit]
    have ha : (wo + i) % cfg.cap = wo + i := Nat.mod_eq_of_lt (by omega)
    rw [ha]
    unfold wrange
    have hyes : wo ≤ wo + i ∧ wo + i < wo + (data.take data.length).length := by
      simp only [List.length_take]
      omega
    rw [if_pos hyes, Nat.add_sub_cancel_left]
    rw [List.getD_eq_getElem _ _ (by simp [List.length_take]; omega),
        List.getD_eq_getElem _ _ (by omega), List.getElem_take]

theorem do_write_file_away (cfg : Cfg) (r : Ring) (data : List Nat)
    (rel_off : Nat) (hc : 0 < cfg.cap) (hlen : data.length ≤ cfg.cap)
    (a : Nat)
    (ha : ∀ i, i < data.length → a ≠ (get_pos_w r + rel_off + i) % cfg.cap) :
    do_write_file cfg r data rel_off a = r.file a := by
  have hwo : (get_pos_w r + rel_off) % cfg.cap < cfg.cap := Nat.mod_lt _ hc
  have haddr : ∀ i, (get_pos_w r + rel_off + i) % cfg.cap =
      ((get_pos_w r + rel_off) % cfg.cap + i) % cfg.cap := fun i =>
    (Nat.mod_add_mod _ _ _).symm
  simp only [haddr] at ha
  simp only [do_write_file]
  generalize hwo2 : (get_pos_w r + rel_off) % cfg.cap = wo at hwo ha ⊢
  split
  case isTrue hlt =>
    have hfit : min (cfg.cap - wo) data.length = cfg.cap - wo := by omega
    rw [hfit] at hlt ⊢
    unfold wrange
    have hnot2 : ¬ (0 ≤ a ∧ a < 0 + (data.drop (cfg.cap - wo)).length) := by
      simp only [List.length_drop]
      intro hcon
      apply ha (a + (cfg.cap - wo)) (by omega)
      have : wo + (a + (cfg.cap - wo)) = cfg.cap + a := by omega
      rw [this, Nat.add_mod_left, Nat.mod_eq_of_lt (by omega)]
    rw [if_neg hnot2]
    have hnot1 : ¬ (wo ≤ a ∧ a < wo + (data.take (cfg.cap - wo)).length) := by
      simp only [List.length_take]
      intro hcon
      apply ha (a - wo) (by omega)
      have : wo + (a - wo) = a := by omega
      rw [this, Nat.mod_eq_of_lt (by omega)]
    rw [if_neg hnot1]
  case isFalse hge =>
    have hfit : min (cfg.cap - wo) data.length = data.length := by omega
    rw [hfit]
    unfold wrange
    have hnot1 : ¬ (wo ≤ a ∧ a < wo + (data.take data.length).length) := by
      simp only [List.length_take]
      intro hcon
      apply ha (a - wo) (by omega)
      have : wo + (a - wo) = a := by omega
      rw [this, Nat.mod_eq_of_lt (by omega)]
    rw [if_neg hnot1]

/-! Arithmetic and list bridges. -/

theorem mod_inj (cap p i j : Nat) (hi : i < cap) (hj : j < cap)
    (h : (p + i) % cap = (p + j) % cap) : i = j := by
  have h2 : (p + i) % cap = (p + j) % cap → (i % cap) = (j % cap) := by
    intro hx
    have hd : (p + i) ≡ (p + j) [MOD cap] := hx
    have := Nat.ModEq.add_left_cancel' p hd
    exact this
  have := h2 h
  rwa [Nat.mod_eq_of_lt hi, Nat.mod_eq_of_lt hj] at this

theorem dec32_enc32 (x : Nat) (h : x < 4294967296) : dec32 (enc32 x) = x := by
  simp only [dec32, enc32, List.getD, List.get?_cons_zero, List.get?_cons_succ,
    Option.getD_some]
  omega

@[simp] theorem enc32_length (x : Nat) : (enc32 x).length = 4 := rfl

theorem logRead_eq_of_at (cfg : Cfg) (f : File) (p : Nat) (xs : List Nat)
    (h : ∀ i, i < xs.length → f ((p + i) % cfg.cap) = xs.getD i 0) :
    logRead cfg f p xs.length = xs := by
  apply List.ext_getElem
  · simp
  · intro i h1 h2
    simp only [logRead, List.getElem_map, List.getElem_range]
    rw [h i h2, List.getD_eq_getElem _ _ h2]

theorem logRead_congr (cfg : Cfg) (f g : File) (p n : Nat)
    (h : ∀ i, i < n → f ((p + i) % cfg.cap) = g ((p + i) % cfg.cap)) :
    logRead cfg f p n = logRead cfg g p n := by
  apply List.ext_getElem
  · simp
  · intro i h1 h2
    simp only [logRead, List.getElem_map, List.getElem_range]
    exact h i (by simpa using h2)

@[simp] theorem syncAttr_readPos (r : Ring) : (syncAttr r).readPos = r.readPos := rfl

@[simp] theorem syncAttr_writeDist (r : Ring) : (syncAttr r).writeDist = r.writeDist := rfl

@[simp] theorem syncAttr_pReadPos (r : Ring) : (syncAttr r).pReadPos = r.readPos := rfl

@[simp] theorem syncAttr_pWriteDist (r : Ring) : (syncAttr r).pWriteDist = r.writeDist := rfl

@[simp] theorem syncAttr_file (r : Ring) : (syncAttr r).file = r.file := rfl

theorem wrange_nil (f : File) (off : Nat) : wrange f off [] = f := by
  funext j
  unfold wrange
  rw [if_neg (by simp)]

theorem do_read_nil_flt (cfg : Cfg) (r : Ring) (sz rel : Nat) :
    (do_read [] cfg r sz rel).flt = [] := by
  simp only [do_read, bcall]
  split <;> rfl

theorem do_read_nil_err (cfg : Cfg) (r : Ring) (sz rel : Nat) :
    (do_read [] cfg r sz rel).err = none := by
  simp only [do_read, bcall]
  split <;> rfl

theorem do_read_nil_shape (cfg : Cfg) (r : Ring) (sz rel : Nat) :
    ∃ bs, do_read [] cfg r sz rel = ⟨bs, [], none⟩ := by
  rcases hdr : do_read [] cfg r sz rel with ⟨bs, fl, er⟩
  have h1 : fl = [] := by
    have h3 := do_read_nil_flt cfg r sz rel
    rw [hdr] at h3
    exact h3
  have h2 : er = none := by
    have h3 := do_read_nil_err cfg r sz rel
    rw [hdr] at h3
    exact h3
  subst h1
  subst h2
  exact ⟨bs, rfl⟩

/-- C9: calling `lfsring_append` with a write mode outside the enumeration
returns `LFS_ERR_INVAL` before any backend call, leaving the fault schedule
and the whole ring state untouched. -/
theorem append_invalid_write_mode (q : Faults) (cfg : Cfg) (r : Ring)
    (data : List Nat) (wm : Nat) (h0 : wm ≠ NO_OVERWRITE) (h1 : wm ≠ OVERWRITE) :
    lfsring_append q cfg r data wm = ⟨r, q, some .inval⟩ := by
  unfold lfsring_append
  rw [if_pos ⟨h0, h1⟩]

theorem append_invalid_write_mode_witness :
    lfsring_append [] ⟨4, Mode.stream⟩ (initRing zeroFile) [1, 2] 2 =
      ⟨initRing zeroFile, [], some .inval⟩ :=
  append_invalid_write_mode [] ⟨4, Mode.stream⟩ (initRing zeroFile) [1, 2] 2
    (by decide) (by decide)

/-- C6 counterexample: `lfsring_open` accepts a persisted blob whose decoded
write distance is 5 even though the configured capacity is 4, so the codec
does not enforce `write_distance ≤ capacity` on decode. -/
theorem open_accepts_overlarge_writeDist_cex :
    (Option.map Ring.writeDist
        (lfsring_open [] ⟨4, Mode.stream⟩
          [0, 0, 0, 0, 0, 0, 0, 0, 5, 0, 0, 0] zeroFile)) = some 5 ∧
      ¬ (5 ≤ 4) := by
  exact ⟨rfl, by decide⟩

/-- C6 amended: on a successful backend open, `lfsring_open` accepts every
blob without validation and decodes the write distance verbatim from bytes 8
to 11, regardless of the configured capacity; only the trivial lower bound
`0 ≤ write_distance` holds. -/
theorem open_decodes_verbatim (cfg : Cfg) (blob : List Nat) (f : File) :
    lfsring_open [] cfg blob f = some (decode_attr blob f) ∧
    (decode_attr blob f).writeDist = dec32 ((blob.drop 8).take 4) ∧
    0 ≤ (decode_attr blob f).writeDist :=
  ⟨rfl, rfl, Nat.zero_le _⟩

/-- C1 counterexample: on a full stream-mode buffer of capacity 4, an
OVERWRITE append whose eviction sync succeeds and whose subsequent backend
write fails returns an error even though both the in-memory and the persisted
read position have already advanced from 0 to 4. -/
theorem overwrite_fault_after_eviction_cex :
    (lfsring_append [false, true] ⟨4, Mode.stream⟩ ⟨0, 4, 0, 4, zeroFile⟩
        [1, 2, 3, 4] OVERWRITE).err = some Err.backend ∧
    (lfsring_append [false, true] ⟨4, Mode.stream⟩ ⟨0, 4, 0, 4, zeroFile⟩
        [1, 2, 3, 4] OVERWRITE).ring.readPos = 4 ∧
    (lfsring_append [false, true] ⟨4, Mode.stream⟩ ⟨0, 4, 0, 4, zeroFile⟩
        [1, 2, 3, 4] OVERWRITE).ring.pReadPos = 4 ∧
    (⟨0, 4, 0, 4, zeroFile⟩ : Ring).readPos = 0 ∧
    (⟨0, 4, 0, 4, zeroFile⟩ : Ring).pReadPos = 0 :=
  ⟨rfl, rfl, rfl, rfl, rfl⟩

theorem mode_not_obj (cfg : Cfg) (hm : cfg.mode = Mode.stream) :
    ¬ (cfg.mode = Mode.obj) := by
  rw [hm]
  exact fun h => Mode.noConfusion h

/-- Characterisation of the fault-free shared append tail in stream mode when
no pre-emptive eviction is needed. -/
theorem append_rest_stream_noevict (cfg : Cfg) (r : Ring) (data : List Nat)
    (wm : Nat) (hm : cfg.mode = Mode.stream)
    (hno : ¬(wm = OVERWRITE ∧ data.length > cfg.cap - r.writeDist)) :
    append_rest [] cfg r data wm =
      ⟨syncAttr { (syncAttr { r with file := do_write_file cfg r data 0 }) with
          writeDist := r.writeDist + data.length }, [], none⟩ := by
  have hobj := mode_not_obj cfg hm
  unfold append_rest
  simp only [if_neg hobj, Nat.add_zero]
  rw [if_neg hno]
  simp only [do_write_nil, advance_write_nil, syncAttr_readPos,
    syncAttr_writeDist, syncAttr_pReadPos, syncAttr_pWriteDist, syncAttr_file]

/-- C10: in stream mode, appending zero bytes with NO_OVERWRITE succeeds from
every state whose persisted and in-memory position agree (every reachable
state, including a completely full buffer), and returns the ring unchanged,
so the emptiness test is unchanged as well. -/
theorem append_empty_noop (cfg : Cfg) (r : Ring) (hm : cfg.mode = Mode.stream)
    (hc : 0 < cfg.cap) (hp1 : r.pReadPos = r.readPos)
    (hp2 : r.pWriteDist = r.writeDist) :
    lfsring_append [] cfg r [] NO_OVERWRITE = ⟨r, [], none⟩ ∧
    lfsring_is_empty (lfsring_append [] cfg r [] NO_OVERWRITE).ring =
      lfsring_is_empty r := by
  have hobj := mode_not_obj cfg hm
  have hmain : lfsring_append [] cfg r [] NO_OVERWRITE = ⟨r, [], none⟩ := by
    unfold lfsring_append
    rw [if_neg (by simp [NO_OVERWRITE])]
    simp only [if_neg hobj]
    rw [if_neg (by simp [NO_OVERWRITE, OVERWRITE])]
    rw [if_neg (by simp)]
    rw [append_rest_stream_noevict cfg r [] NO_OVERWRITE hm
      (by simp [NO_OVERWRITE, OVERWRITE])]
    simp only [do_write_file, List.length_nil, Nat.min_zero, List.take_nil,
      wrange_nil, Nat.lt_irrefl, if_false, Nat.add_zero]
    cases r
    simp only [syncAttr] at *
    simp_all
  exact ⟨hmain, by rw [hmain]⟩

theorem append_empty_noop_witness :
    lfsring_append [] ⟨4, Mode.stream⟩ ⟨0, 4, 0, 4, zeroFile⟩ []
        NO_OVERWRITE = ⟨⟨0, 4, 0, 4, zeroFile⟩, [], none⟩ ∧
    lfsring_is_empty (lfsring_append [] ⟨4, Mode.stream⟩
        ⟨0, 4, 0, 4, zeroFile⟩ [] NO_OVERWRITE).ring =
      lfsring_is_empty ⟨0, 4, 0, 4, zeroFile⟩ :=
  append_empty_noop ⟨4, Mode.stream⟩ ⟨0, 4, 0, 4, zeroFile⟩ rfl (by decide)
    rfl rfl

/-- Characterisation of a fault-free stream-mode peek. -/
theorem peek_stream_nil (cfg : Cfg) (r : Ring) (bs : Nat)
    (hm : cfg.mode = Mode.stream) (hc : 0 < cfg.cap)
    (hb : min r.writeDist bs ≤ cfg.cap) :
    lfsring_peek [] cfg r bs =
      ⟨logRead cfg r.file r.readPos (min r.writeDist bs), [], none⟩ := by
  have hobj := mode_not_obj cfg hm
  unfold lfsring_peek
  rw [if_neg hobj]
  rw [do_read_nil cfg r _ 0 hc hb]
  simp [get_pos_r]

/-- C2: stream round trip; from any empty state, appending `x` with
NO_OVERWRITE succeeds whenever `x` fits the capacity, and an immediate take
with buffer size `len x` succeeds returning exactly the bytes of `x`. -/
theorem stream_roundtrip (cfg : Cfg) (r : Ring) (x : List Nat)
    (hm : cfg.mode = Mode.stream) (hc : 0 < cfg.cap) (hwd : r.writeDist = 0)
    (hx : x.length ≤ cfg.cap) :
    (lfsring_append [] cfg r x NO_OVERWRITE).err = none ∧
    (lfsring_take [] cfg (lfsring_append [] cfg r x NO_OVERWRITE).ring
        x.length).bytes = x ∧
    (lfsring_take [] cfg (lfsring_append [] cfg r x NO_OVERWRITE).ring
        x.length).err = none := by
  have hobj := mode_not_obj cfg hm
  have happ : lfsring_append [] cfg r x NO_OVERWRITE =
      ⟨⟨r.readPos, r.writeDist + x.length, r.readPos, r.writeDist + x.length,
        do_write_file cfg r x 0⟩, [], none⟩ := by
    unfold lfsring_append
    rw [if_neg (by simp [NO_OVERWRITE])]
    simp only [if_neg hobj]
    rw [if_neg (by simp [NO_OVERWRITE, OVERWRITE])]
    rw [if_neg (by omega)]
    rw [append_rest_stream_noevict cfg r x NO_OVERWRITE hm
      (by simp [NO_OVERWRITE, OVERWRITE])]
    rfl
  have hbytes : logRead cfg (do_write_file cfg r x 0) r.readPos x.length = x := by
    have h2 : ∀ i, i < x.length →
        do_write_file cfg r x 0 ((r.readPos + i) % cfg.cap) = x.getD i 0 := by
      intro i hi
      have h3 := do_write_file_at cfg r x 0 hc hx i hi
      rw [get_pos_w, get_pos_r, hwd] at h3
      simpa using h3
    exact logRead_eq_of_at cfg _ r.readPos x h2
  rw [happ]
  simp only [hwd, Nat.zero_add]
  unfold lfsring_take
  rw [peek_stream_nil cfg _ x.length hm hc (by simpa using hx)]
  simp only [Nat.min_self]
  rw [hbytes]
  simp only [advance_read_nil, if_neg hobj]
  simp

theorem stream_roundtrip_witness :
    (lfsring_append [] ⟨4, Mode.stream⟩ (initRing zeroFile) [7, 8, 9]
        NO_OVERWRITE).err = none ∧
    (lfsring_take [] ⟨4, Mode.stream⟩ (lfsring_append [] ⟨4, Mode.stream⟩
        (initRing zeroFile) [7, 8, 9] NO_OVERWRITE).ring 3).bytes = [7, 8, 9] ∧
    (lfsring_take [] ⟨4, Mode.stream⟩ (lfsring_append [] ⟨4, Mode.stream⟩
        (initRing zeroFile) [7, 8, 9] NO_OVERWRITE).ring 3).err = none :=
  stream_roundtrip ⟨4, Mode.stream⟩ (initRing zeroFile) [7, 8, 9] rfl
    (by decide) rfl (by decide)

/-- Characterisation of the fault-free shared append tail in stream mode with
OVERWRITE when eviction is needed. -/
theorem append_rest_stream_evict (cfg : Cfg) (r : Ring) (data : List Nat)
    (hm : cfg.mode = Mode.stream)
    (hov : data.length > cfg.cap - r.writeDist) :
    (append_rest [] cfg r data OVERWRITE).err = none ∧
    (append_rest [] cfg r data OVERWRITE).ring.readPos =
      r.readPos + (data.length - (cfg.cap - r.writeDist)) ∧
    (append_rest [] cfg r data OVERWRITE).ring.writeDist =
      (r.writeDist - (data.length - (cfg.cap - r.writeDist))) + data.length ∧
    (append_rest [] cfg r data OVERWRITE).ring.pReadPos =
      r.readPos + (data.length - (cfg.cap - r.writeDist)) ∧
    (append_rest [] cfg r data OVERWRITE).ring.pWriteDist =
      (r.writeDist - (data.length - (cfg.cap - r.writeDist))) + data.length := by
  have hobj := mode_not_obj cfg hm
  unfold append_rest
  simp only [if_neg hobj, Nat.add_zero]
  rw [if_pos (And.intro trivial hov)]
  simp only [advance_read_nil, do_write_nil, advance_write_nil,
    syncAttr_readPos, syncAttr_writeDist, syncAttr_pReadPos,
    syncAttr_pWriteDist, syncAttr_file]
  simp

/-- C7: stream-mode OVERWRITE append: oversized data is truncated to its
trailing `capacity` bytes, the read position advances by exactly the excess of
the truncated size over the available space, the append succeeds, and the new
write distance is `min (old + truncated size) capacity`. -/
theorem stream_overwrite_spec (cfg : Cfg) (r : Ring) (data : List Nat)
    (hm : cfg.mode = Mode.stream) (hc : 0 < cfg.cap)
    (hwd : r.writeDist ≤ cfg.cap) :
    lfsring_append [] cfg r data OVERWRITE =
      lfsring_append [] cfg r (data.drop (data.length - cfg.cap)) OVERWRITE ∧
    (lfsring_append [] cfg r data OVERWRITE).err = none ∧
    (lfsring_append [] cfg r data OVERWRITE).ring.writeDist =
      min (r.writeDist + min data.length cfg.cap) cfg.cap ∧
    (lfsring_append [] cfg r data OVERWRITE).ring.readPos =
      r.readPos + (min data.length cfg.cap - (cfg.cap - r.writeDist)) := by
  have hobj := mode_not_obj cfg hm
  have hwm : ¬(OVERWRITE ≠ NO_OVERWRITE ∧ OVERWRITE ≠ OVERWRITE) := by
    simp [NO_OVERWRITE, OVERWRITE]
  have hlenA : (if data.length > cfg.cap then
      data.drop (data.length - cfg.cap) else data).length =
      min data.length cfg.cap := by
    split <;> simp <;> omega
  have happ : lfsring_append [] cfg r data OVERWRITE =
      append_rest [] cfg r
        (if data.length > cfg.cap then data.drop (data.length - cfg.cap)
          else data) OVERWRITE := by
    unfold lfsring_append
    rw [if_neg hwm]
    simp only [if_neg hobj]
    rw [if_pos (trivial : True)]
  have htrunc : lfsring_append [] cfg r data OVERWRITE =
      lfsring_append [] cfg r (data.drop (data.length - cfg.cap)) OVERWRITE := by
    rw [happ]
    unfold lfsring_append
    rw [if_neg hwm]
    simp only [if_neg hobj]
    rw [if_pos (trivial : True)]
    by_cases hlen : data.length > cfg.cap
    · rw [if_pos hlen, if_neg (by simp; omega)]
    · rw [if_neg hlen]
      have h0 : data.length - cfg.cap = 0 := by omega
      rw [h0, List.drop_zero]
      rw [if_neg hlen]
  refine ⟨htrunc, ?_⟩
  rw [happ]
  set A := (if data.length > cfg.cap then
    data.drop (data.length - cfg.cap) else data) with hA
  by_cases hev : A.length > cfg.cap - r.writeDist
  · obtain ⟨h1, h2, h3, _, _⟩ := append_rest_stream_evict cfg r A hm hev
    rw [hlenA] at h2 h3 hev
    refine ⟨h1, ?_, ?_⟩
    · rw [h3]
      omega
    · rw [h2]
  · have hev2 := hev
    rw [hlenA] at hev2
    rw [append_rest_stream_noevict cfg r A OVERWRITE hm
      (fun hcon => hev hcon.2)]
    refine ⟨rfl, ?_, ?_⟩
    · show r.writeDist + A.length = _
      rw [hlenA]
      omega
    · show r.readPos = _
      omega

theorem stream_overwrite_spec_witness :
    lfsring_append [] ⟨4, Mode.stream⟩ ⟨0, 3, 0, 3, zeroFile⟩ [1, 2, 3, 4, 5, 6]
        OVERWRITE =
      lfsring_append [] ⟨4, Mode.stream⟩ ⟨0, 3, 0, 3, zeroFile⟩ [3, 4, 5, 6]
        OVERWRITE ∧
    (lfsring_append [] ⟨4, Mode.stream⟩ ⟨0, 3, 0, 3, zeroFile⟩
        [1, 2, 3, 4, 5, 6] OVERWRITE).err = none ∧
    (lfsring_append [] ⟨4, Mode.stream⟩ ⟨0, 3, 0, 3, zeroFile⟩
        [1, 2, 3, 4, 5, 6] OVERWRITE).ring.writeDist = min (3 + min 6 4) 4 ∧
    (lfsring_append [] ⟨4, Mode.stream⟩ ⟨0, 3, 0, 3, zeroFile⟩
        [1, 2, 3, 4, 5, 6] OVERWRITE).ring.readPos = 0 + (min 6 4 - (4 - 3)) :=
  stream_overwrite_spec ⟨4, Mode.stream⟩ ⟨0, 3, 0, 3, zeroFile⟩
    [1, 2, 3, 4, 5, 6] rfl (by decide) (by decide)

/-- Full case analysis of a fault-free object-mode peek as one equation. -/
theorem peek_obj_nil (cfg : Cfg) (r : Ring) (bs : Nat)
    (hm : cfg.mode = Mode.obj) (hc : 4 ≤ cfg.cap) (hwd : r.writeDist ≤ cfg.cap) :
    lfsring_peek [] cfg r bs =
      (if r.writeDist = 0 then ⟨[], [], some .noent⟩
       else if r.writeDist < 4 then ⟨[], [], some .corrupt⟩
       else if r.writeDist - 4 < dec32 (logRead cfg r.file r.readPos 4) then
         ⟨[], [], some .corrupt⟩
       else if dec32 (logRead cfg r.file r.readPos 4) > bs then
         ⟨[], [], some .nomem⟩
       else ⟨logRead cfg r.file (r.readPos + 4)
         (dec32 (logRead cfg r.file r.readPos 4)), [], none⟩) := by
  unfold lfsring_peek
  rw [if_pos hm]
  by_cases h0 : r.writeDist = 0
  · rw [if_pos h0, if_pos h0]
  · rw [if_neg h0, if_neg h0]
    by_cases h4 : r.writeDist < 4
    · rw [if_pos h4, if_pos h4]
    · rw [if_neg h4, if_neg h4]
      rw [do_read_nil cfg r 4 0 (by omega) (by omega)]
      simp only [get_pos_r, Nat.add_zero]
      by_cases h5 : r.writeDist - 4 < dec32 (logRead cfg r.file r.readPos 4)
      · rw [if_pos h5, if_pos h5]
      · rw [if_neg h5, if_neg h5]
        by_cases h6 : dec32 (logRead cfg r.file r.readPos 4) > bs
        · rw [if_pos h6, if_pos h6]
        · rw [if_neg h6, if_neg h6]
          rw [do_read_nil cfg r _ 4 (by omega) (by omega)]
          simp [get_pos_r]

/-- C4: object-mode peek: NotFound exactly when the buffer is empty; with the
leading 4-byte length `L`, Corrupt when `write_distance - 4 < L` over the
integers; BufferTooSmall when `L` exceeds the buffer; otherwise exactly the
`L` payload bytes following the header are returned. The read-only result
type of `lfsring_peek` reflects that no branch mutates the position state. -/
theorem object_peek_cases (cfg : Cfg) (r : Ring) (bs : Nat)
    (hm : cfg.mode = Mode.obj) (hc : 4 ≤ cfg.cap) (hwd : r.writeDist ≤ cfg.cap) :
    (r.writeDist = 0 → lfsring_peek [] cfg r bs = ⟨[], [], some .noent⟩) ∧
    (0 < r.writeDist →
      ((r.writeDist : Int) - 4 <
          (dec32 (logRead cfg r.file r.readPos 4) : Int) →
        lfsring_peek [] cfg r bs = ⟨[], [], some .corrupt⟩) ∧
      (¬ ((r.writeDist : Int) - 4 <
          (dec32 (logRead cfg r.file r.readPos 4) : Int)) →
        (dec32 (logRead cfg r.file r.readPos 4) > bs →
          lfsring_peek [] cfg r bs = ⟨[], [], some .nomem⟩) ∧
        (dec32 (logRead cfg r.file r.readPos 4) ≤ bs →
          lfsring_peek [] cfg r bs =
            ⟨logRead cfg r.file (r.readPos + 4)
              (dec32 (logRead cfg r.file r.readPos 4)), [], none⟩))) := by
  have hpeek := peek_obj_nil cfg r bs hm hc hwd
  refine ⟨?_, ?_⟩
  · intro h0
    rw [hpeek, if_pos h0]
  · intro hpos
    refine ⟨?_, ?_⟩
    · intro hcorr
      rw [hpeek, if_neg (by omega)]
      by_cases h4 : r.writeDist < 4
      · rw [if_pos h4]
      · rw [if_neg h4, if_pos (by omega)]
    · intro hncorr
      refine ⟨?_, ?_⟩
      · intro h6
        rw [hpeek, if_neg (by omega), if_neg (by omega), if_neg (by omega),
          if_pos h6]
      · intro h6
        rw [hpeek, if_neg (by omega), if_neg (by omega), if_neg (by omega),
          if_neg (by omega)]

theorem object_peek_cases_witness :
    lfsring_peek [] ⟨8, Mode.obj⟩ (initRing zeroFile) 5 =
      ⟨[], [], some .noent⟩ :=
  (object_peek_cases ⟨8, Mode.obj⟩ (initRing zeroFile) 5 rfl (by decide)
    (by decide)).1 rfl

/-- C8: closing and reopening reconstructs an identical ring whenever the
in-memory position state agrees with the persisted one (as it does after
every completed operation) and the position fields are within their on-disk
ranges; consequently is_empty, peek, and take observe identical results. -/
theorem reopen_equiv (cfg : Cfg) (r : Ring)
    (hp1 : r.pReadPos = r.readPos) (hp2 : r.pWriteDist = r.writeDist)
    (h64 : r.readPos < 18446744073709551616)
    (h32 : r.writeDist < 4294967296) :
    lfsring_open [] cfg (lfsring_close r).1 (lfsring_close r).2 = some r ∧
    lfsring_is_empty (decode_attr (lfsring_close r).1 (lfsring_close r).2) =
      lfsring_is_empty r ∧
    (∀ q bs, lfsring_peek q cfg
        (decode_attr (lfsring_close r).1 (lfsring_close r).2) bs =
      lfsring_peek q cfg r bs) ∧
    (∀ q bs, lfsring_take q cfg
        (decode_attr (lfsring_close r).1 (lfsring_close r).2) bs =
      lfsring_take q cfg r bs) := by
  obtain ⟨rp, wd, prp, pwd, fl⟩ := r
  replace hp1 : rp = prp := Eq.symm hp1
  replace hp2 : wd = pwd := Eq.symm hp2
  replace h64 : rp < 18446744073709551616 := h64
  replace h32 : wd < 4294967296 := h32
  subst hp1
  subst hp2
  have hblob : encode_attr ⟨rp, wd, rp, wd, fl⟩ = enc32 (rp % 4294967296) ++
      (enc32 (rp / 4294967296) ++ enc32 wd) := by
    unfold encode_attr
    rw [List.append_assoc]
  have htake : (encode_attr ⟨rp, wd, rp, wd, fl⟩).take 4 =
      enc32 (rp % 4294967296) := by
    rw [hblob, List.take_left' (enc32_length _)]
  have hdrop : (encode_attr ⟨rp, wd, rp, wd, fl⟩).drop 4 =
      enc32 (rp / 4294967296) ++ enc32 wd := by
    rw [hblob, List.drop_left' (enc32_length _)]
  have htake2 : ((encode_attr ⟨rp, wd, rp, wd, fl⟩).drop 4).take 4 =
      enc32 (rp / 4294967296) := by
    rw [hdrop, List.take_left' (enc32_length _)]
  have hdrop8 : ((encode_attr ⟨rp, wd, rp, wd, fl⟩).drop 8).take 4 =
      enc32 wd := by
    have h84 : (8 : Nat) = 4 + 4 := rfl
    rw [h84, ← List.drop_drop, hdrop, List.drop_left' (enc32_length _)]
    rw [show (4 : Nat) = (enc32 wd).length from rfl, List.take_length]
  have hdec : decode_attr (encode_attr ⟨rp, wd, rp, wd, fl⟩) fl =
      ⟨rp, wd, rp, wd, fl⟩ := by
    unfold decode_attr
    rw [htake, htake2, hdrop8]
    rw [dec32_enc32 _ (by omega), dec32_enc32 _ (by omega),
      dec32_enc32 _ (by omega)]
    simp only [Ring.mk.injEq]
    refine ⟨?_, ?_, ?_, ?_, ?_⟩ <;> first | trivial | omega
  have hclose1 : (lfsring_close ⟨rp, wd, rp, wd, fl⟩).1 =
      encode_attr ⟨rp, wd, rp, wd, fl⟩ := rfl
  have hclose2 : (lfsring_close ⟨rp, wd, rp, wd, fl⟩).2 = fl := rfl
  rw [hclose1, hclose2, hdec]
  refine ⟨?_, rfl, fun q bs => rfl, fun q bs => rfl⟩
  unfold lfsring_open bcall
  rw [hdec]

theorem reopen_equiv_witness :
    lfsring_open [] ⟨4, Mode.stream⟩
        (lfsring_close ⟨9, 2, 9, 2, zeroFile⟩).1
        (lfsring_close ⟨9, 2, 9, 2, zeroFile⟩).2 =
      some ⟨9, 2, 9, 2, zeroFile⟩ :=
  (reopen_equiv ⟨4, Mode.stream⟩ ⟨9, 2, 9, 2, zeroFile⟩ rfl rfl (by decide)
    (by decide)).1

@[simp] theorem append_writes_readPos (cfg : Cfg) (r1 : Ring)
    (data : List Nat) (ws : Nat) :
    (append_writes cfg r1 data ws).readPos = r1.readPos := by
  unfold append_writes
  split <;> rfl

@[simp] theorem append_writes_writeDist (cfg : Cfg) (r1 : Ring)
    (data : List Nat) (ws : Nat) :
    (append_writes cfg r1 data ws).writeDist = r1.writeDist + ws := by
  unfold append_writes
  split <;> rfl

@[simp] theorem append_writes_pReadPos (cfg : Cfg) (r1 : Ring)
    (data : List Nat) (ws : Nat) :
    (append_writes cfg r1 data ws).pReadPos = r1.readPos := by
  unfold append_writes
  split <;> rfl

@[simp] theorem append_writes_pWriteDist (cfg : Cfg) (r1 : Ring)
    (data : List Nat) (ws : Nat) :
    (append_writes cfg r1 data ws).pWriteDist = r1.writeDist + ws := by
  unfold append_writes
  split <;> rfl

/-- Combined walk of the eviction scan under the empty fault schedule: the
schedule stays empty, and on success the accumulated count covers the overlap
without overshooting the skippable live region. -/
theorem evict_loop_nil_spec (cfg : Cfg) (r : Ring) (ov sk : Nat) :
    ∀ fuel d, ov - d ≤ fuel → d ≤ sk →
      ((evict_loop [] cfg r ov sk d).flt = [] ∧
       ((evict_loop [] cfg r ov sk d).err = none →
         ov ≤ (evict_loop [] cfg r ov sk d).dropped ∧
         d ≤ (evict_loop [] cfg r ov sk d).dropped ∧
         (evict_loop [] cfg r ov sk d).dropped ≤ sk)) := by
  intro fuel
  induction fuel with
  | zero =>
    intro d hf hd
    rw [evict_loop.eq_def]
    rw [dif_neg (by omega)]
    refine ⟨rfl, fun _ => ⟨?_, le_rfl, hd⟩⟩
    show ov ≤ d
    omega
  | succ n ih =>
    intro d hf hd
    rw [evict_loop.eq_def]
    by_cases h1 : d < ov
    · rw [dif_pos h1]
      by_cases h2 : sk - d < 4
      · rw [if_pos h2]
        exact ⟨rfl, fun hx => Option.noConfusion hx⟩
      · rw [if_neg h2]
        obtain ⟨bs4, hbs4⟩ := do_read_nil_shape cfg r 4 d
        rw [hbs4]
        simp only
        by_cases h3 : sk - (d + 4) < dec32 bs4
        · rw [if_pos h3]
          exact ⟨rfl, fun hx => Option.noConfusion hx⟩
        · rw [if_neg h3]
          obtain ⟨hA, hB⟩ := ih (d + 4 + dec32 bs4) (by omega) (by omega)
          refine ⟨hA, fun he => ⟨(hB he).1, ?_, (hB he).2.2⟩⟩
          have h9 := (hB he).2.1
          omega
    · rw [dif_neg h1]
      refine ⟨rfl, fun _ => ⟨?_, le_rfl, hd⟩⟩
      show ov ≤ d
      omega

/-- Combined walk of the object-mode drop scan under the empty fault
schedule. -/
theorem drop_loop_nil_spec (cfg : Cfg) (r : Ring) (avail : Nat) :
    ∀ n d, d ≤ avail →
      ((drop_loop [] cfg r n avail d).flt = [] ∧
       ((drop_loop [] cfg r n avail d).err = none →
         d ≤ (drop_loop [] cfg r n avail d).dropped ∧
         (drop_loop [] cfg r n avail d).dropped ≤ avail)) := by
  intro n
  induction n with
  | zero =>
    intro d hd
    exact ⟨rfl, fun _ => ⟨le_rfl, hd⟩⟩
  | succ n ih =>
    intro d hd
    rw [drop_loop.eq_def]
    simp only
    by_cases h0 : avail = d
    · rw [if_pos h0]
      exact ⟨rfl, fun hx => Option.noConfusion hx⟩
    · rw [if_neg h0]
      by_cases h2 : avail - d < 4
      · rw [if_pos h2]
        exact ⟨rfl, fun hx => Option.noConfusion hx⟩
      · rw [if_neg h2]
        obtain ⟨bs4, hbs4⟩ := do_read_nil_shape cfg r 4 d
        rw [hbs4]
        simp only
        by_cases h3 : avail - (d + 4) < dec32 bs4
        · rw [if_pos h3]
          exact ⟨rfl, fun hx => Option.noConfusion hx⟩
        · rw [if_neg h3]
          obtain ⟨hA, hB⟩ := ih (d + 4 + dec32 bs4) (by omega)
          refine ⟨hA, fun he => ⟨?_, (hB he).2⟩⟩
          have h9 := (hB he).1
          omega

/-- Master equation for the fault-free shared append tail: validation aside,
it either fails during the eviction scan leaving the state untouched, or
advances the read position (by the scanned amount in object mode, by the raw
overlap in stream mode) and performs the writes. -/
theorem append_rest_nil (cfg : Cfg) (r : Ring) (data : List Nat) (wm : Nat) :
    append_rest [] cfg r data wm =
      (let ws := data.length + (if cfg.mode = Mode.obj then 4 else 0)
       let avail := cfg.cap - r.writeDist
       if wm = OVERWRITE ∧ ws > avail then
         if cfg.mode = Mode.obj then
           match evict_loop [] cfg r (ws - avail) r.writeDist 0 with
           | ⟨_, q1, some e⟩ => ⟨r, q1, some e⟩
           | ⟨D, _, none⟩ =>
             ⟨append_writes cfg
               (syncAttr { r with readPos := r.readPos + D,
                                  writeDist := r.writeDist - D }) data ws,
              [], none⟩
         else
           ⟨append_writes cfg
             (syncAttr { r with readPos := r.readPos + (ws - avail),
                                writeDist := r.writeDist - (ws - avail) })
             data ws, [], none⟩
       else ⟨append_writes cfg r data ws, [], none⟩) := by
  unfold append_rest append_writes
  by_cases hm : cfg.mode = Mode.obj
  · simp only [if_pos hm]
    by_cases hov : wm = OVERWRITE ∧ data.length + 4 > cfg.cap - r.writeDist
    · rw [if_pos hov, if_pos hov]
      rcases hev : evict_loop [] cfg r
          (data.length + 4 - (cfg.cap - r.writeDist)) r.writeDist 0
        with ⟨D, q1, er⟩
      have hq1 : q1 = [] := by
        have h5 := (evict_loop_nil_spec cfg r
          (data.length + 4 - (cfg.cap - r.writeDist)) r.writeDist
          (data.length + 4 - (cfg.cap - r.writeDist)) 0 (by omega)
          (Nat.zero_le _)).1
        rw [hev] at h5
        exact h5
      subst hq1
      cases er with
      | some e => rfl
      | none =>
        simp only [advance_read_nil, do_write_nil, advance_write_nil,
          syncAttr_readPos, syncAttr_writeDist, syncAttr_pReadPos,
          syncAttr_pWriteDist, syncAttr_file]
    · rw [if_neg hov, if_neg hov]
      simp only [do_write_nil, advance_write_nil, syncAttr_readPos,
        syncAttr_writeDist, syncAttr_pReadPos, syncAttr_pWriteDist,
        syncAttr_file]
  · simp only [if_neg hm]
    by_cases hov : wm = OVERWRITE ∧ data.length + 0 > cfg.cap - r.writeDist
    · rw [if_pos hov, if_pos hov]
      simp only [advance_read_nil, do_write_nil, advance_write_nil,
        syncAttr_readPos, syncAttr_writeDist, syncAttr_pReadPos,
        syncAttr_pWriteDist, syncAttr_file]
    · rw [if_neg hov, if_neg hov]
      simp only [do_write_nil, advance_write_nil, syncAttr_readPos,
        syncAttr_writeDist, syncAttr_pReadPos, syncAttr_pWriteDist,
        syncAttr_file]

theorem peek_nil_flt (cfg : Cfg) (r : Ring) (bs : Nat) :
    (lfsring_peek [] cfg r bs).flt = [] := by
  unfold lfsring_peek
  simp only
  by_cases hm : cfg.mode = Mode.obj
  · rw [if_pos hm]
    by_cases h0 : r.writeDist = 0
    · rw [if_pos h0]
    · rw [if_neg h0]
      by_cases h4 : r.writeDist < 4
      · rw [if_pos h4]
      · rw [if_neg h4]
        obtain ⟨bs4, hbs4⟩ := do_read_nil_shape cfg r 4 0
        rw [hbs4]
        simp only
        by_cases h5 : r.writeDist - 4 < dec32 bs4
        · rw [if_pos h5]
        · rw [if_neg h5]
          by_cases h6 : dec32 bs4 > bs
          · rw [if_pos h6]
          · rw [if_neg h6]
            exact do_read_nil_flt cfg r _ 4
  · rw [if_neg hm]
    exact do_read_nil_flt cfg r _ 0

theorem append_rest_nil_error (cfg : Cfg) (r : Ring) (data : List Nat)
    (wm : Nat) (e : Err) (h : (append_rest [] cfg r data wm).err = some e) :
    (append_rest [] cfg r data wm).ring = r := by
  rw [append_rest_nil] at h ⊢
  simp only at h ⊢
  by_cases hov : wm = OVERWRITE ∧
      data.length + (if cfg.mode = Mode.obj then 4 else 0) >
        cfg.cap - r.writeDist
  · rw [if_pos hov] at h ⊢
    by_cases hm : cfg.mode = Mode.obj
    · rw [if_pos hm] at h ⊢
      rcases hev : evict_loop [] cfg r
          ((data.length + (if cfg.mode = Mode.obj then 4 else 0)) -
            (cfg.cap - r.writeDist)) r.writeDist 0 with ⟨D, q1, er⟩
      cases er with
      | some e2 => rfl
      | none =>
        rw [hev] at h
        exact Option.noConfusion h
    · rw [if_neg hm] at h ⊢
      exact Option.noConfusion h
  · rw [if_neg hov] at h ⊢
    exact Option.noConfusion h

theorem append_nil_error (cfg : Cfg) (r : Ring) (data0 : List Nat)
    (wm : Nat) (e : Err)
    (h : (lfsring_append [] cfg r data0 wm).err = some e) :
    (lfsring_append [] cfg r data0 wm).ring = r := by
  unfold lfsring_append at h ⊢
  by_cases h1 : wm ≠ NO_OVERWRITE ∧ wm ≠ OVERWRITE
  · rw [if_pos h1]
  · rw [if_neg h1] at h ⊢
    simp only at h ⊢
    by_cases hm : cfg.mode = Mode.obj
    · rw [if_pos hm] at h ⊢
      by_cases h2 : (if wm = OVERWRITE then cfg.cap else
          cfg.cap - r.writeDist) < 4
      · rw [if_pos h2]
      · rw [if_neg h2] at h ⊢
        by_cases h3 : data0.length > (if wm = OVERWRITE then cfg.cap else
            cfg.cap - r.writeDist) - 4
        · rw [if_pos h3]
        · rw [if_neg h3] at h ⊢
          exact append_rest_nil_error cfg r data0 wm e h
    · rw [if_neg hm] at h ⊢
      by_cases h4 : wm = OVERWRITE
      · rw [if_pos h4] at h ⊢
        exact append_rest_nil_error cfg r _ wm e h
      · rw [if_neg h4] at h ⊢
        by_cases h5 : data0.length > cfg.cap - r.writeDist
        · rw [if_pos h5]
        · rw [if_neg h5] at h ⊢
          exact append_rest_nil_error cfg r data0 wm e h

theorem take_nil_error (cfg : Cfg) (r : Ring) (bs : Nat) (e : Err)
    (h : (lfsring_take [] cfg r bs).err = some e) :
    (lfsring_take [] cfg r bs).ring = r := by
  unfold lfsring_take at h ⊢
  rcases hpk : lfsring_peek [] cfg r bs with ⟨bts, q1, er⟩
  cases er with
  | some e2 => rfl
  | none =>
    have hq1 : q1 = [] := by
      have h5 := peek_nil_flt cfg r bs
      rw [hpk] at h5
      exact h5
    subst hq1
    rw [hpk] at h
    exact Option.noConfusion h

theorem drop_nil_error (cfg : Cfg) (r : Ring) (n : Nat) (e : Err)
    (h : (lfsring_drop [] cfg r n).err = some e) :
    (lfsring_drop [] cfg r n).ring = r := by
  unfold lfsring_drop at h ⊢
  simp only at h ⊢
  by_cases hm : cfg.mode = Mode.stream
  · rw [if_pos hm] at h ⊢
    by_cases h1 : n > r.writeDist
    · rw [if_pos h1]
    · rw [if_neg h1] at h ⊢
      rw [advance_read_nil] at h
      simp at h
  · rw [if_neg hm] at h ⊢
    rcases hdl : drop_loop [] cfg r n r.writeDist 0 with ⟨D, q1, er⟩
    cases er with
    | some e2 => rfl
    | none =>
      have hq1 : q1 = [] := by
        have h5 := (drop_loop_nil_spec cfg r r.writeDist n 0 (Nat.zero_le _)).1
        rw [hdl] at h5
        exact h5
      subst hq1
      rw [hdl] at h
      exact Option.noConfusion h

/-- C1 amended: on a fault-free run, every error returned by append, take, or
drop leaves the whole ring state, in-memory and persisted Position State
included, unchanged; the counterexample shows this fails once backend calls
can fail after the eviction step of an OVERWRITE append. -/
theorem nofault_error_preserves_state (cfg : Cfg) (r : Ring)
    (data : List Nat) (wm bs n : Nat) (e1 e2 e3 : Err) :
    ((lfsring_append [] cfg r data wm).err = some e1 →
      (lfsring_append [] cfg r data wm).ring = r) ∧
    ((lfsring_take [] cfg r bs).err = some e2 →
      (lfsring_take [] cfg r bs).ring = r) ∧
    ((lfsring_drop [] cfg r n).err = some e3 →
      (lfsring_drop [] cfg r n).ring = r) :=
  ⟨fun h => append_nil_error cfg r data wm e1 h,
   fun h => take_nil_error cfg r bs e2 h,
   fun h => drop_nil_error cfg r n e3 h⟩

theorem nofault_error_preserves_state_witness :
    (lfsring_append [] ⟨8, Mode.obj⟩ (initRing zeroFile) [1, 1, 1, 1, 1]
        NO_OVERWRITE).ring = initRing zeroFile ∧
    (lfsring_take [] ⟨8, Mode.obj⟩ (initRing zeroFile) 0).ring =
      initRing zeroFile ∧
    (lfsring_drop [] ⟨8, Mode.obj⟩ (initRing zeroFile) 1).ring =
      initRing zeroFile := by
  obtain ⟨h1, h2, h3⟩ := nofault_error_preserves_state ⟨8, Mode.obj⟩
    (initRing zeroFile) [1, 1, 1, 1, 1] NO_OVERWRITE 0 1
    Err.nospc Err.noent Err.inval
  exact ⟨h1 rfl, h2 rfl, h3 rfl⟩

theorem append_rest_nil_wd (cfg : Cfg) (r : Ring) (data : List Nat) (wm : Nat)
    (hwd : r.writeDist ≤ cfg.cap)
    (hws : data.length + (if cfg.mode = Mode.obj then 4 else 0) ≤ cfg.cap)
    (hnov : wm ≠ OVERWRITE →
      data.length + (if cfg.mode = Mode.obj then 4 else 0) ≤
        cfg.cap - r.writeDist)
    (hok : (append_rest [] cfg r data wm).err = none) :
    (append_rest [] cfg r data wm).ring.writeDist ≤ cfg.cap := by
  rw [append_rest_nil] at hok ⊢
  by_cases hm : cfg.mode = Mode.obj
  · simp only [if_pos hm] at hok hws hnov ⊢
    by_cases hov : wm = OVERWRITE ∧ data.length + 4 > cfg.cap - r.writeDist
    · rw [if_pos hov] at hok ⊢
      rcases hev : evict_loop [] cfg r
          (data.length + 4 - (cfg.cap - r.writeDist)) r.writeDist 0
        with ⟨D, q1, er⟩
      cases er with
      | some e =>
        rw [hev] at hok
        exact Option.noConfusion hok
      | none =>
        have hb := (evict_loop_nil_spec cfg r
          (data.length + 4 - (cfg.cap - r.writeDist)) r.writeDist
          (data.length + 4 - (cfg.cap - r.writeDist)) 0 (by omega)
          (Nat.zero_le _)).2
        rw [hev] at hb
        obtain ⟨hD1, _, hD3⟩ := hb rfl
        have hD1b : data.length + 4 - (cfg.cap - r.writeDist) ≤ D := hD1
        have hD3b : D ≤ r.writeDist := hD3
        show (append_writes cfg
          (syncAttr { r with readPos := r.readPos + D,
                             writeDist := r.writeDist - D }) data
          (data.length + 4)).writeDist ≤ cfg.cap
        rw [append_writes_writeDist, syncAttr_writeDist]
        show r.writeDist - D + (data.length + 4) ≤ cfg.cap
        omega
    · rw [if_neg hov] at hok ⊢
      show (append_writes cfg r data (data.length + 4)).writeDist ≤ cfg.cap
      rw [append_writes_writeDist]
      by_cases h1 : wm = OVERWRITE
      · have h2 : ¬ (data.length + 4 > cfg.cap - r.writeDist) :=
          fun hb => hov ⟨h1, hb⟩
        omega
      · have h3 := hnov h1
        omega
  · simp only [if_neg hm] at hok hws hnov ⊢
    by_cases hov : wm = OVERWRITE ∧ data.length + 0 > cfg.cap - r.writeDist
    · rw [if_pos hov] at hok ⊢
      show (append_writes cfg
        (syncAttr { r with
          readPos := r.readPos + (data.length + 0 - (cfg.cap - r.writeDist)),
          writeDist := r.writeDist - (data.length + 0 - (cfg.cap - r.writeDist))
        }) data (data.length + 0)).writeDist ≤ cfg.cap
      rw [append_writes_writeDist, syncAttr_writeDist]
      show r.writeDist - (data.length + 0 - (cfg.cap - r.writeDist)) +
        (data.length + 0) ≤ cfg.cap
      omega
    · rw [if_neg hov] at hok ⊢
      show (append_writes cfg r data (data.length + 0)).writeDist ≤ cfg.cap
      rw [append_writes_writeDist]
      by_cases h1 : wm = OVERWRITE
      · have h2 : ¬ (data.length + 0 > cfg.cap - r.writeDist) :=
          fun hb => hov ⟨h1, hb⟩
        omega
      · have h3 := hnov h1
        omega

theorem append_nil_wd (cfg : Cfg) (r : Ring) (data0 : List Nat) (wm : Nat)
    (hwd : r.writeDist ≤ cfg.cap)
    (hok : (lfsring_append [] cfg r data0 wm).err = none) :
    (lfsring_append [] cfg r data0 wm).ring.writeDist ≤ cfg.cap := by
  unfold lfsring_append at hok ⊢
  by_cases h1 : wm ≠ NO_OVERWRITE ∧ wm ≠ OVERWRITE
  · rw [if_pos h1] at hok
    exact Option.noConfusion hok
  · rw [if_neg h1] at hok ⊢
    simp only at hok ⊢
    by_cases hm : cfg.mode = Mode.obj
    · rw [if_pos hm] at hok ⊢
      by_cases h2 : (if wm = OVERWRITE then cfg.cap else
          cfg.cap - r.writeDist) < 4
      · rw [if_pos h2] at hok
        exact Option.noConfusion hok
      · rw [if_neg h2] at hok ⊢
        by_cases h3 : data0.length > (if wm = OVERWRITE then cfg.cap else
            cfg.cap - r.writeDist) - 4
        · rw [if_pos h3] at hok
          exact Option.noConfusion hok
        · rw [if_neg h3] at hok ⊢
          apply append_rest_nil_wd cfg r data0 wm hwd ?_ ?_ hok
          · rw [if_pos hm]
            by_cases h4 : wm = OVERWRITE
            · rw [if_pos h4] at h2 h3
              omega
            · rw [if_neg h4] at h2 h3
              omega
          · intro h5
            rw [if_pos hm]
            rw [if_neg h5] at h2 h3
            omega
    · rw [if_neg hm] at hok ⊢
      by_cases h4 : wm = OVERWRITE
      · rw [if_pos h4] at hok ⊢
        apply append_rest_nil_wd cfg r _ wm hwd ?_ ?_ hok
        · rw [if_neg hm]
          split
          · simp only [List.length_drop, Nat.add_zero]
            omega
          · simp only [Nat.add_zero]
            omega
        · intro h5
          exact absurd h4 h5
      · rw [if_neg h4] at hok ⊢
        by_cases h5 : data0.length > cfg.cap - r.writeDist
        · rw [if_pos h5] at hok
          exact Option.noConfusion hok
        · rw [if_neg h5] at hok ⊢
          apply append_rest_nil_wd cfg r data0 wm hwd ?_ ?_ hok
          · rw [if_neg hm]
            omega
          · intro h6
            rw [if_neg hm]
            omega

theorem take_nil_wd (cfg : Cfg) (r : Ring) (bs : Nat)
    (hwd : r.writeDist ≤ cfg.cap) :
    (lfsring_take [] cfg r bs).ring.writeDist ≤ cfg.cap := by
  unfold lfsring_take
  rcases hpk : lfsring_peek [] cfg r bs with ⟨bts, q1, er⟩
  cases er with
  | some e2 => exact hwd
  | none =>
    have hq1 : q1 = [] := by
      have h5 := peek_nil_flt cfg r bs
      rw [hpk] at h5
      exact h5
    subst hq1
    show r.writeDist -
        (bts.length + (if cfg.mode = Mode.obj then 4 else 0)) ≤ cfg.cap
    exact le_trans (Nat.sub_le _ _) hwd

theorem drop_nil_wd (cfg : Cfg) (r : Ring) (n : Nat)
    (hwd : r.writeDist ≤ cfg.cap) :
    (lfsring_drop [] cfg r n).ring.writeDist ≤ cfg.cap := by
  unfold lfsring_drop
  simp only
  by_cases hm : cfg.mode = Mode.stream
  · rw [if_pos hm]
    by_cases h1 : n > r.writeDist
    · rw [if_pos h1]
      exact hwd
    · rw [if_neg h1]
      show r.writeDist - n ≤ cfg.cap
      exact le_trans (Nat.sub_le _ _) hwd
  · rw [if_neg hm]
    rcases hdl : drop_loop [] cfg r n r.writeDist 0 with ⟨D, q1, er⟩
    cases er with
    | some e2 => exact hwd
    | none =>
      have hq1 : q1 = [] := by
        have h5 := (drop_loop_nil_spec cfg r r.writeDist n 0 (Nat.zero_le _)).1
        rw [hdl] at h5
        exact h5
      subst hq1
      show r.writeDist - D ≤ cfg.cap
      exact le_trans (Nat.sub_le _ _) hwd

theorem wd_le_of_reach (cfg : Cfg) (r : Ring) (h : Reach cfg r) :
    r.writeDist ≤ cfg.cap := by
  induction h with
  | init f => exact Nat.zero_le _
  | append r0 data wm hr hok ih => exact append_nil_wd cfg r0 data wm ih hok
  | take r0 bs hr hok ih => exact take_nil_wd cfg r0 bs ih
  | drop r0 n hr hok ih => exact drop_nil_wd cfg r0 n ih

/-- C5: the invariant `0 ≤ write_distance ≤ capacity` holds in every state
reachable from the zero-initialised empty state by successful operations, in
both content modes and both write modes (the lower bound is inherent to the
unsigned field). -/
theorem writeDist_invariant_reachable (cfg : Cfg) (r : Ring)
    (h : Reach cfg r) : r.writeDist ≤ cfg.cap :=
  wd_le_of_reach cfg r h

theorem writeDist_invariant_reachable_witness :
    (initRing zeroFile).writeDist ≤ (4 : Nat) :=
  writeDist_invariant_reachable ⟨4, Mode.stream⟩ (initRing zeroFile)
    (Reach.init zeroFile)

/-! Framing lemmas for the object-mode boundary invariant. -/

theorem Framed_congr (cfg : Cfg) (f g : File) (p d : Nat)
    (h : Framed cfg f p d) :
    (∀ i, i < d → f ((p + i) % cfg.cap) = g ((p + i) % cfg.cap)) →
    Framed cfg g p d := by
  induction h with
  | nil p0 =>
    intro _
    exact Framed.nil p0
  | cons p0 d0 L hL hle rest ih =>
    intro hfg
    refine Framed.cons p0 d0 L ?_ hle (ih ?_)
    · rw [hL]
      have h2 := logRead_congr cfg f g p0 4 (fun i hi => hfg i (by omega))
      rw [h2]
    · intro i hi
      have h2 := hfg ((4 + L) + i) (by omega)
      have h3 : p0 + (4 + L) + i = p0 + ((4 + L) + i) := by omega
      rw [h3]
      exact h2

theorem Framed_concat (cfg : Cfg) (f : File) (p a : Nat)
    (h1 : Framed cfg f p a) :
    ∀ b, Framed cfg f (p + a) b → Framed cfg f p (a + b) := by
  induction h1 with
  | nil p0 =>
    intro b h2
    simpa using h2
  | cons p0 d0 L hL hle rest ih =>
    intro b h2
    have h5 : p0 + (4 + L) + (d0 - (4 + L)) = p0 + d0 := by omega
    have h3 := ih b (by rw [h5]; exact h2)
    have h4 : d0 + b - (4 + L) = (d0 - (4 + L)) + b := by omega
    exact Framed.cons p0 (d0 + b) L hL (by omega) (by rw [h4]; exact h3)

theorem Framed_single (cfg : Cfg) (f : File) (p L : Nat)
    (hL : L = dec32 (logRead cfg f p 4)) :
    Framed cfg f p (4 + L) :=
  Framed.cons p (4 + L) L hL le_rfl
    (by simpa using Framed.nil (p + (4 + L)))

theorem Framed_pos_inv (cfg : Cfg) (f : File) (p d : Nat)
    (h : Framed cfg f p d) (hd : d ≠ 0) :
    ∃ L, L = dec32 (logRead cfg f p 4) ∧ 4 + L ≤ d ∧
      Framed cfg f (p + (4 + L)) (d - (4 + L)) := by
  cases h with
  | nil => exact absurd rfl hd
  | cons p d L hL hle rest => exact ⟨L, hL, hle, rest⟩

/-- Walking the eviction scan along a framed live region: on success, the
scanned span is itself a concatenation of whole framed objects, and the
remainder stays framed: the scan lands exactly on an object boundary. -/
theorem evict_loop_framed (cfg : Cfg) (r : Ring) (ov : Nat)
    (hc : 4 ≤ cfg.cap) :
    ∀ fuel d, ov - d ≤ fuel → d ≤ r.writeDist →
      Framed cfg r.file r.readPos d →
      Framed cfg r.file (r.readPos + d) (r.writeDist - d) →
      (evict_loop [] cfg r ov r.writeDist d).err = none →
      (Framed cfg r.file r.readPos
          (evict_loop [] cfg r ov r.writeDist d).dropped ∧
       Framed cfg r.file
          (r.readPos + (evict_loop [] cfg r ov r.writeDist d).dropped)
          (r.writeDist - (evict_loop [] cfg r ov r.writeDist d).dropped)) := by
  intro fuel
  induction fuel with
  | zero =>
    intro d hf hd hpre hsuf hok
    rw [evict_loop.eq_def]
    rw [dif_neg (by omega)]
    exact ⟨hpre, hsuf⟩
  | succ n ih =>
    intro d hf hd hpre hsuf hok
    rw [evict_loop.eq_def] at hok ⊢
    by_cases h1 : d < ov
    · rw [dif_pos h1] at hok ⊢
      by_cases h2 : r.writeDist - d < 4
      · rw [if_pos h2] at hok
        exact Option.noConfusion hok
      · rw [if_neg h2] at hok ⊢
        rw [do_read_nil cfg r 4 d (by omega) (by omega)] at hok ⊢
        simp only [get_pos_r] at hok ⊢
        obtain ⟨L, hL, hle, rest⟩ := Framed_pos_inv cfg r.file
          (r.readPos + d) (r.writeDist - d) hsuf (by omega)
        have hLval : dec32 (logRead cfg r.file (r.readPos + d) 4) = L :=
          hL.symm
        rw [hLval] at hok ⊢
        have h3 : ¬ (r.writeDist - (d + 4) < L) := by omega
        rw [if_neg h3] at hok ⊢
        have hnext1 : Framed cfg r.file r.readPos (d + (4 + L)) :=
          Framed_concat cfg r.file r.readPos d hpre (4 + L)
            (Framed_single cfg r.file (r.readPos + d) L hL)
        have hpre2 : Framed cfg r.file r.readPos (d + 4 + L) := by
          have he : d + (4 + L) = d + 4 + L := by omega
          rwa [he] at hnext1
        have hsuf2 : Framed cfg r.file (r.readPos + (d + 4 + L))
            (r.writeDist - (d + 4 + L)) := by
          have he1 : r.readPos + d + (4 + L) = r.readPos + (d + 4 + L) := by
            omega
          have he2 : r.writeDist - d - (4 + L) = r.writeDist - (d + 4 + L) := by
            omega
          rw [he1, he2] at rest
          exact rest
        exact ih (d + 4 + L) (by omega) (by omega) hpre2 hsuf2 hok
    · rw [dif_neg h1] at hok ⊢
      exact ⟨hpre, hsuf⟩

/-- Walking the object-mode drop scan along a framed live region. -/
theorem drop_loop_framed (cfg : Cfg) (r : Ring) (hc : 4 ≤ cfg.cap) :
    ∀ n d, d ≤ r.writeDist →
      Framed cfg r.file r.readPos d →
      Framed cfg r.file (r.readPos + d) (r.writeDist - d) →
      (drop_loop [] cfg r n r.writeDist d).err = none →
      (Framed cfg r.file r.readPos
          (drop_loop [] cfg r n r.writeDist d).dropped ∧
       Framed cfg r.file
          (r.readPos + (drop_loop [] cfg r n r.writeDist d).dropped)
          (r.writeDist - (drop_loop [] cfg r n r.writeDist d).dropped)) := by
  intro n
  induction n with
  | zero =>
    intro d hd hpre hsuf hok
    exact ⟨hpre, hsuf⟩
  | succ n ih =>
    intro d hd hpre hsuf hok
    rw [drop_loop.eq_def] at hok ⊢
    simp only at hok ⊢
    by_cases h0 : r.writeDist = d
    · rw [if_pos h0] at hok
      exact Option.noConfusion hok
    · rw [if_neg h0] at hok ⊢
      by_cases h2 : r.writeDist - d < 4
      · rw [if_pos h2] at hok
        exact Option.noConfusion hok
      · rw [if_neg h2] at hok ⊢
        rw [do_read_nil cfg r 4 d (by omega) (by omega)] at hok ⊢
        simp only [get_pos_r] at hok ⊢
        obtain ⟨L, hL, hle, rest⟩ := Framed_pos_inv cfg r.file
          (r.readPos + d) (r.writeDist - d) hsuf (by omega)
        have hLval : dec32 (logRead cfg r.file (r.readPos + d) 4) = L :=
          hL.symm
        rw [hLval] at hok ⊢
        have h3 : ¬ (r.writeDist - (d + 4) < L) := by omega
        rw [if_neg h3] at hok ⊢
        have hnext1 : Framed cfg r.file r.readPos (d + (4 + L)) :=
          Framed_concat cfg r.file r.readPos d hpre (4 + L)
            (Framed_single cfg r.file (r.readPos + d) L hL)
        have hpre2 : Framed cfg r.file r.readPos (d + 4 + L) := by
          have he : d + (4 + L) = d + 4 + L := by omega
          rwa [he] at hnext1
        have hsuf2 : Framed cfg r.file (r.readPos + (d + 4 + L))
            (r.writeDist - (d + 4 + L)) := by
          have he1 : r.readPos + d + (4 + L) = r.readPos + (d + 4 + L) := by
            omega
          have he2 : r.writeDist - d - (4 + L) = r.writeDist - (d + 4 + L) := by
            omega
          rw [he1, he2] at rest
          exact rest
        exact ih (d + 4 + L) (by omega) hpre2 hsuf2 hok

theorem append_writes_obj_file (cfg : Cfg) (r1 : Ring) (data : List Nat)
    (ws : Nat) (hm : cfg.mode = Mode.obj) :
    (append_writes cfg r1 data ws).file =
      do_write_file cfg (syncAttr { r1 with
        file := do_write_file cfg r1 (enc32 data.length) 0 }) data 4 := by
  unfold append_writes
  simp only [if_pos hm]
  rfl

/-- Writing one framed object at the write position of a ring whose live
region is framed extends the framing by that object: the header and payload
land at physical offsets disjoint from the live region because the total
span fits the capacity, the header decodes to the payload length, and the
framed region grows by one whole object. -/
theorem append_writes_obj_framed (cfg : Cfg) (r1 : Ring) (data : List Nat)
    (hm : cfg.mode = Mode.obj) (hlen : data.length < 4294967296)
    (hfit : r1.writeDist + (data.length + 4) ≤ cfg.cap)
    (hfr : Framed cfg r1.file r1.readPos r1.writeDist) :
    Framed cfg (append_writes cfg r1 data (data.length + 4)).file
      r1.readPos (r1.writeDist + (data.length + 4)) := by
  have hc : 0 < cfg.cap := by omega
  rw [append_writes_obj_file cfg r1 data (data.length + 4) hm]
  set F1 := do_write_file cfg r1 (enc32 data.length) 0 with hF1
  set R2 : Ring := syncAttr { r1 with file := F1 } with hR2
  set F2 := do_write_file cfg R2 data 4 with hF2
  have haddr0 : ∀ i : Nat, (get_pos_w r1 + 0 + i) % cfg.cap =
      (r1.readPos + (r1.writeDist + i)) % cfg.cap := by
    intro i
    unfold get_pos_w get_pos_r
    congr 1
    omega
  have haddr4 : ∀ j : Nat, (get_pos_w R2 + 4 + j) % cfg.cap =
      (r1.readPos + (r1.writeDist + 4 + j)) % cfg.cap := by
    intro j
    show (r1.readPos + r1.writeDist + 4 + j) % cfg.cap = _
    congr 1
    omega
  have hA : ∀ i, i < 4 → F1 ((r1.readPos + (r1.writeDist + i)) % cfg.cap) =
      (enc32 data.length).getD i 0 := by
    intro i hi
    rw [← haddr0 i, hF1]
    exact do_write_file_at cfg r1 (enc32 data.length) 0 hc
      (by rw [enc32_length]; omega) i (by rw [enc32_length]; omega)
  have hAway1 : ∀ X, X < cfg.cap → (∀ i, i < 4 → X ≠ r1.writeDist + i) →
      F1 ((r1.readPos + X) % cfg.cap) = r1.file ((r1.readPos + X) % cfg.cap) := by
    intro X hX hXne
    rw [hF1]
    apply do_write_file_away cfg r1 (enc32 data.length) 0 hc
      (by rw [enc32_length]; omega)
    intro i hi
    rw [enc32_length] at hi
    rw [haddr0 i]
    intro heq
    have h9 := mod_inj cfg.cap r1.readPos X (r1.writeDist + i) hX (by omega) heq
    exact hXne i hi h9
  have hAway2 : ∀ X, X < cfg.cap →
      (∀ j, j < data.length → X ≠ r1.writeDist + 4 + j) →
      F2 ((r1.readPos + X) % cfg.cap) = F1 ((r1.readPos + X) % cfg.cap) := by
    intro X hX hXne
    have harg : ∀ j, j < data.length →
        (r1.readPos + X) % cfg.cap ≠ (get_pos_w R2 + 4 + j) % cfg.cap := by
      intro j hj
      rw [haddr4 j]
      intro heq
      have h9 := mod_inj cfg.cap r1.readPos X (r1.writeDist + 4 + j) hX
        (by omega) heq
      exact hXne j hj h9
    have h1 := do_write_file_away cfg R2 data 4 hc (by omega)
      ((r1.readPos + X) % cfg.cap) harg
    rw [hF2]
    exact h1
  have hE : ∀ i, i < r1.writeDist →
      r1.file ((r1.readPos + i) % cfg.cap) = F2 ((r1.readPos + i) % cfg.cap) := by
    intro i hi
    have h1 := hAway2 i (by omega) (fun j hj heq => by omega)
    have h2 := hAway1 i (by omega) (fun i2 hi2 heq => by omega)
    rw [h1, h2]
  have hFr2 : Framed cfg F2 r1.readPos r1.writeDist :=
    Framed_congr cfg r1.file F2 r1.readPos r1.writeDist hfr hE
  have hF : ∀ i, i < 4 →
      F2 ((r1.readPos + (r1.writeDist + i)) % cfg.cap) =
        (enc32 data.length).getD i 0 := by
    intro i hi
    have h1 := hAway2 (r1.writeDist + i) (by omega) (fun j hj heq => by omega)
    rw [h1]
    exact hA i hi
  have hG : logRead cfg F2 (r1.readPos + r1.writeDist) 4 = enc32 data.length := by
    have h0 : (4 : Nat) = (enc32 data.length).length := (enc32_length _).symm
    rw [h0]
    apply logRead_eq_of_at
    intro i hi
    rw [enc32_length] at hi
    have h2 : r1.readPos + r1.writeDist + i = r1.readPos + (r1.writeDist + i) := by
      omega
    rw [h2]
    exact hF i hi
  have hH : data.length = dec32 (logRead cfg F2 (r1.readPos + r1.writeDist) 4) := by
    rw [hG, dec32_enc32 _ hlen]
  have hI : Framed cfg F2 (r1.readPos + r1.writeDist) (4 + data.length) :=
    Framed_single cfg F2 (r1.readPos + r1.writeDist) data.length hH
  have hJ := Framed_concat cfg F2 r1.readPos r1.writeDist hFr2
    (4 + data.length) hI
  have hK : r1.writeDist + (4 + data.length) =
      r1.writeDist + (data.length + 4) := by omega
  rwa [hK] at hJ

/-- Framing is preserved by every successful fault-free object-mode append,
and the span skipped by an OVERWRITE eviction is itself a concatenation of
whole framed objects of the pre-state. -/
theorem append_framed_step (cfg : Cfg) (r : Ring) (data0 : List Nat)
    (wm : Nat) (hm : cfg.mode = Mode.obj) (hc32 : cfg.cap < 4294967296)
    (hwd : r.writeDist ≤ cfg.cap)
    (hfr : Framed cfg r.file r.readPos r.writeDist)
    (hok : (lfsring_append [] cfg r data0 wm).err = none) :
    Framed cfg (lfsring_append [] cfg r data0 wm).ring.file
      (lfsring_append [] cfg r data0 wm).ring.readPos
      (lfsring_append [] cfg r data0 wm).ring.writeDist ∧
    Framed cfg r.file r.readPos
      ((lfsring_append [] cfg r data0 wm).ring.readPos - r.readPos) := by
  unfold lfsring_append at hok ⊢
  by_cases h1 : wm ≠ NO_OVERWRITE ∧ wm ≠ OVERWRITE
  · rw [if_pos h1] at hok
    exact Option.noConfusion hok
  · rw [if_neg h1] at hok ⊢
    simp only at hok ⊢
    rw [if_pos hm] at hok ⊢
    by_cases h2 : (if wm = OVERWRITE then cfg.cap else
        cfg.cap - r.writeDist) < 4
    · rw [if_pos h2] at hok
      exact Option.noConfusion hok
    · rw [if_neg h2] at hok ⊢
      by_cases h3 : data0.length > (if wm = OVERWRITE then cfg.cap else
          cfg.cap - r.writeDist) - 4
      · rw [if_pos h3] at hok
        exact Option.noConfusion hok
      · rw [if_neg h3] at hok ⊢
        have hsz : data0.length + 4 ≤ cfg.cap := by
          by_cases h4 : wm = OVERWRITE
          · rw [if_pos h4] at h2 h3
            omega
          · rw [if_neg h4] at h2 h3
            omega
        have hnosp : wm ≠ OVERWRITE →
            data0.length + 4 ≤ cfg.cap - r.writeDist := by
          intro h4
          rw [if_neg h4] at h2 h3
          omega
        have hlen : data0.length < 4294967296 := by omega
        rw [append_rest_nil] at hok ⊢
        simp only [if_pos hm] at hok ⊢
        by_cases hov : wm = OVERWRITE ∧
            data0.length + 4 > cfg.cap - r.writeDist
        · rw [if_pos hov] at hok ⊢
          rcases hev : evict_loop [] cfg r
              (data0.length + 4 - (cfg.cap - r.writeDist)) r.writeDist 0
            with ⟨D, q1, er⟩
          cases er with
          | some e =>
            rw [hev] at hok
            exact Option.noConfusion hok
          | none =>
            have hb := (evict_loop_nil_spec cfg r
              (data0.length + 4 - (cfg.cap - r.writeDist)) r.writeDist
              (data0.length + 4 - (cfg.cap - r.writeDist)) 0 (by omega)
              (Nat.zero_le _)).2
            rw [hev] at hb
            obtain ⟨hD1, _, hD3⟩ := hb rfl
            have hD1b : data0.length + 4 - (cfg.cap - r.writeDist) ≤ D := hD1
            have hD3b : D ≤ r.writeDist := hD3
            have hfrm := evict_loop_framed cfg r
              (data0.length + 4 - (cfg.cap - r.writeDist)) (by omega)
              (data0.length + 4 - (cfg.cap - r.writeDist)) 0 (by omega)
              (Nat.zero_le _) (Framed.nil _) (by simpa using hfr)
              (by rw [hev])
            rw [hev] at hfrm
            obtain ⟨hpreD, hsufD⟩ := hfrm
            have hpreD2 : Framed cfg r.file r.readPos D := hpreD
            have hsufD2 : Framed cfg r.file (r.readPos + D)
                (r.writeDist - D) := hsufD
            have happ := append_writes_obj_framed cfg
              (syncAttr { r with readPos := r.readPos + D,
                                 writeDist := r.writeDist - D })
              data0 hm hlen
              (by show r.writeDist - D + (data0.length + 4) ≤ cfg.cap; omega)
              hsufD2
            constructor
            · show Framed cfg
                (append_writes cfg
                  (syncAttr { r with readPos := r.readPos + D,
                                     writeDist := r.writeDist - D })
                  data0 (data0.length + 4)).file
                (append_writes cfg
                  (syncAttr { r with readPos := r.readPos + D,
                                     writeDist := r.writeDist - D })
                  data0 (data0.length + 4)).readPos
                (append_writes cfg
                  (syncAttr { r with readPos := r.readPos + D,
                                     writeDist := r.writeDist - D })
                  data0 (data0.length + 4)).writeDist
              rw [append_writes_readPos, append_writes_writeDist]
              simp only [syncAttr_readPos, syncAttr_writeDist]
              exact happ
            · show Framed cfg r.file r.readPos
                ((append_writes cfg
                  (syncAttr { r with readPos := r.readPos + D,
                                     writeDist := r.writeDist - D })
                  data0 (data0.length + 4)).readPos - r.readPos)
              rw [append_writes_readPos]
              simp only [syncAttr_readPos]
              have h7 : r.readPos + D - r.readPos = D := by omega
              rw [h7]
              exact hpreD2
        · rw [if_neg hov] at hok ⊢
          have hfit : r.writeDist + (data0.length + 4) ≤ cfg.cap := by
            by_cases h4 : wm = OVERWRITE
            · have h8 : ¬ (data0.length + 4 > cfg.cap - r.writeDist) :=
                fun hb => hov ⟨h4, hb⟩
              omega
            · have h8 := hnosp h4
              omega
          have happ := append_writes_obj_framed cfg r data0 hm hlen hfit hfr
          constructor
          · show Framed cfg
              (append_writes cfg r data0 (data0.length + 4)).file
              (append_writes cfg r data0 (data0.length + 4)).readPos
              (append_writes cfg r data0 (data0.length + 4)).writeDist
            rw [append_writes_readPos, append_writes_writeDist]
            exact happ
          · show Framed cfg r.file r.readPos
              ((append_writes cfg r data0 (data0.length + 4)).readPos -
                r.readPos)
            rw [append_writes_readPos]
            have h7 : r.readPos - r.readPos = 0 := by omega
            rw [h7]
            exact Framed.nil r.readPos

/-- Framing is preserved by every successful fault-free object-mode take. -/
theorem take_framed_step (cfg : Cfg) (r : Ring) (bs : Nat)
    (hm : cfg.mode = Mode.obj) (hc4 : 4 ≤ cfg.cap)
    (hwd : r.writeDist ≤ cfg.cap)
    (hfr : Framed cfg r.file r.readPos r.writeDist)
    (hok : (lfsring_take [] cfg r bs).err = none) :
    Framed cfg (lfsring_take [] cfg r bs).ring.file
      (lfsring_take [] cfg r bs).ring.readPos
      (lfsring_take [] cfg r bs).ring.writeDist := by
  unfold lfsring_take at hok ⊢
  rw [peek_obj_nil cfg r bs hm hc4 hwd] at hok ⊢
  by_cases h0 : r.writeDist = 0
  · rw [if_pos h0] at hok
    exact Option.noConfusion hok
  · rw [if_neg h0] at hok ⊢
    by_cases h4 : r.writeDist < 4
    · rw [if_pos h4] at hok
      exact Option.noConfusion hok
    · rw [if_neg h4] at hok ⊢
      by_cases h5 : r.writeDist - 4 <
          dec32 (logRead cfg r.file r.readPos 4)
      · rw [if_pos h5] at hok
        exact Option.noConfusion hok
      · rw [if_neg h5] at hok ⊢
        by_cases h6 : dec32 (logRead cfg r.file r.readPos 4) > bs
        · rw [if_pos h6] at hok
          exact Option.noConfusion hok
        · rw [if_neg h6] at hok ⊢
          obtain ⟨L0, hL0, hle0, rest0⟩ :=
            Framed_pos_inv cfg r.file r.readPos r.writeDist hfr h0
          simp only [logRead_length, if_pos hm, advance_read_nil,
            syncAttr_readPos, syncAttr_writeDist, syncAttr_file]
          show Framed cfg r.file
            (r.readPos + (dec32 (logRead cfg r.file r.readPos 4) + 4))
            (r.writeDist - (dec32 (logRead cfg r.file r.readPos 4) + 4))
          rw [← hL0]
          have he1 : r.readPos + (L0 + 4) = r.readPos + (4 + L0) := by omega
          have he2 : r.writeDist - (L0 + 4) = r.writeDist - (4 + L0) := by
            omega
          rw [he1, he2]
          exact rest0

/-- Framing is preserved by every successful fault-free object-mode drop. -/
theorem drop_framed_step (cfg : Cfg) (r : Ring) (n : Nat)
    (hm : cfg.mode = Mode.obj) (hc4 : 4 ≤ cfg.cap)
    (hfr : Framed cfg r.file r.readPos r.writeDist)
    (hok : (lfsring_drop [] cfg r n).err = none) :
    Framed cfg (lfsring_drop [] cfg r n).ring.file
      (lfsring_drop [] cfg r n).ring.readPos
      (lfsring_drop [] cfg r n).ring.writeDist := by
  unfold lfsring_drop at hok ⊢
  simp only at hok ⊢
  have hms : ¬ (cfg.mode = Mode.stream) := by
    rw [hm]
    exact fun h => Mode.noConfusion h
  rw [if_neg hms] at hok ⊢
  rcases hdl : drop_loop [] cfg r n r.writeDist 0 with ⟨D, q1, er⟩
  cases er with
  | some e =>
    rw [hdl] at hok
    exact Option.noConfusion hok
  | none =>
    have hq1 : q1 = [] := by
      have h5 := (drop_loop_nil_spec cfg r r.writeDist n 0 (Nat.zero_le _)).1
      rw [hdl] at h5
      exact h5
    subst hq1
    have hfrm := drop_loop_framed cfg r hc4 n 0 (Nat.zero_le _)
      (Framed.nil _) (by simpa using hfr) (by rw [hdl])
    rw [hdl] at hfrm
    obtain ⟨hpre, hsuf⟩ := hfrm
    show Framed cfg r.file (r.readPos + D) (r.writeDist - D)
    exact hsuf

theorem framed_of_reach (cfg : Cfg) (r : Ring) (hm : cfg.mode = Mode.obj)
    (hc4 : 4 ≤ cfg.cap) (hc32 : cfg.cap < 4294967296) (h : Reach cfg r) :
    Framed cfg r.file r.readPos r.writeDist := by
  induction h with
  | init f => exact Framed.nil 0
  | append r0 data wm hr hok ih =>
    exact (append_framed_step cfg r0 data wm hm hc32
      (wd_le_of_reach cfg r0 hr) ih hok).1
  | take r0 bs hr hok ih =>
    exact take_framed_step cfg r0 bs hm hc4 (wd_le_of_reach cfg r0 hr) ih hok
  | drop r0 n hr hok ih =>
    exact drop_framed_step cfg r0 n hm hc4 ih hok

/-- C3: in object mode (for any capacity that can hold at least a header and
fits the 32-bit size field), in every state reachable from the empty state by
successful appends (including evicting OVERWRITE appends), takes, and drops,
the live region is a concatenation of whole framed objects starting exactly
at the read position; moreover, whatever an OVERWRITE append evicts is itself
a concatenation of whole framed objects of the pre-state, never part of
one. -/
theorem object_reach_framed (cfg : Cfg) (r : Ring) (hm : cfg.mode = Mode.obj)
    (hc4 : 4 ≤ cfg.cap) (hc32 : cfg.cap < 4294967296) (h : Reach cfg r) :
    Framed cfg r.file r.readPos r.writeDist ∧
    (∀ data : List Nat,
      (lfsring_append [] cfg r data OVERWRITE).err = none →
      Framed cfg r.file r.readPos
        ((lfsring_append [] cfg r data OVERWRITE).ring.readPos -
          r.readPos)) :=
  ⟨framed_of_reach cfg r hm hc4 hc32 h,
   fun data hok => (append_framed_step cfg r data OVERWRITE hm hc32
     (wd_le_of_reach cfg r h) (framed_of_reach cfg r hm hc4 hc32 h) hok).2⟩

theorem object_reach_framed_witness :
    Framed ⟨8, Mode.obj⟩ zeroFile 0 0 ∧
    (∀ data : List Nat,
      (lfsring_append [] ⟨8, Mode.obj⟩ (initRing zeroFile) data
        OVERWRITE).err = none →
      Framed ⟨8, Mode.obj⟩ zeroFile 0
        ((lfsring_append [] ⟨8, Mode.obj⟩ (initRing zeroFile) data
          OVERWRITE).ring.readPos - 0)) :=
  object_reach_framed ⟨8, Mode.obj⟩ (initRing zeroFile) rfl (by decide)
    (by decide) (Reach.init zeroFile)

end LfsRing
